import Mathlib

/-!
# Transaction sets (`lib/rpmts.h`)

A shallow embedding of `lib/rpmts.h`.

The header defines the verification-flag enumerators and their convenience
masks, the transaction types, the score structures, the transaction set
structure and the disk-space macros `adj_fs_blocks` and `BLOCK_ROUND`; these
are embedded as they stand.  C `int`/`long` values are mathematical integers
(`Int`), with `/` the C division, which truncates toward zero (`Int.tdiv`);
bit masks are natural numbers.  `BLOCK_ROUND_u32` is `BLOCK_ROUND` at the
operand types the header declares, with the sum taken modulo `2 ^ 32`.

The header only declares the functions of the transaction set (`rpmtsOrder`,
`rpmtsAddInstallElement`, `rpmtsUnlink`, `rpmtsUpdateDSI`, the score
functions).  Their models follow the header's documentation and the
specification of the transaction engine, and say so in their doc comments.
-/

namespace Rpmts

/-! ## Disk-space macros -/

/-- The macro `adj_fs_blocks(_nb)`, i.e. `(((_nb) * 21) / 20)`: the operand is
the signed `bneeded` counter, the division is C division. -/
def adj_fs_blocks (nb : Int) : Int := Int.tdiv (nb * 21) 20

/-- The macro `BLOCK_ROUND(size, block)`, i.e.
`(((size) + (block) - 1) / (block))`, over mathematical integers. -/
def BLOCK_ROUND (size block : Int) : Int := Int.tdiv (size + block - 1) block

/-! ## Verification flags (`rpmVSFlags`) -/

def RPMVSF_DEFAULT : Nat := 0
def RPMVSF_NOHDRCHK : Nat := 1 <<< 0
def RPMVSF_NEEDPAYLOAD : Nat := 1 <<< 1
def RPMVSF_NOSHA1HEADER : Nat := 1 <<< 8
def RPMVSF_NOMD5HEADER : Nat := 1 <<< 9
def RPMVSF_NODSAHEADER : Nat := 1 <<< 10
def RPMVSF_NORSAHEADER : Nat := 1 <<< 11
def RPMVSF_NOSHA1 : Nat := 1 <<< 16
def RPMVSF_NOMD5 : Nat := 1 <<< 17
def RPMVSF_NODSA : Nat := 1 <<< 18
def RPMVSF_NORSA : Nat := 1 <<< 19

/-- The macro `_RPMVSF_NODIGESTS`. -/
def _RPMVSF_NODIGESTS : Nat :=
  RPMVSF_NOSHA1HEADER ||| RPMVSF_NOMD5HEADER ||| RPMVSF_NOSHA1 ||| RPMVSF_NOMD5

/-- The macro `_RPMVSF_NOSIGNATURES`. -/
def _RPMVSF_NOSIGNATURES : Nat :=
  RPMVSF_NODSAHEADER ||| RPMVSF_NORSAHEADER ||| RPMVSF_NODSA ||| RPMVSF_NORSA

/-- The macro `_RPMVSF_NOHEADER`. -/
def _RPMVSF_NOHEADER : Nat :=
  RPMVSF_NOSHA1HEADER ||| RPMVSF_NOMD5HEADER ||| RPMVSF_NODSAHEADER ||| RPMVSF_NORSAHEADER

/-- The macro `_RPMVSF_NOPAYLOAD`. -/
def _RPMVSF_NOPAYLOAD : Nat :=
  RPMVSF_NOSHA1 ||| RPMVSF_NOMD5 ||| RPMVSF_NODSA ||| RPMVSF_NORSA

/-- Every enumerator of `rpmVSFlags` other than `RPMVSF_DEFAULT`, in the
order of the declaration. -/
def rpmVSFlags_enumerators : List Nat :=
  [RPMVSF_NOHDRCHK, RPMVSF_NEEDPAYLOAD,
   RPMVSF_NOSHA1HEADER, RPMVSF_NOMD5HEADER, RPMVSF_NODSAHEADER, RPMVSF_NORSAHEADER,
   RPMVSF_NOSHA1, RPMVSF_NOMD5, RPMVSF_NODSA, RPMVSF_NORSA]

/-- The four convenience masks. -/
def rpmVSFlags_masks : List Nat :=
  [_RPMVSF_NODIGESTS, _RPMVSF_NOSIGNATURES, _RPMVSF_NOHEADER, _RPMVSF_NOPAYLOAD]

/-- A flag value `v` has all the bits of `m` set: the C test `(v & m) == m`. -/
def vsflagsHas (v m : Nat) : Bool := v &&& m == m

/-- Setting a flag: the C statement `v |= f`. -/
def vsflagsSet (v f : Nat) : Nat := v ||| f

/-- Clearing a flag: the C statement `v &= ~f` on a 32-bit value. -/
def vsflagsClear (v f : Nat) : Nat := v &&& (0xFFFFFFFF ^^^ f)

/-! ## Transaction types (`rpmtsType`) -/

def RPMTRANS_TYPE_NORMAL : Nat := 0
def RPMTRANS_TYPE_ROLLBACK : Nat := 1 <<< 0
def RPMTRANS_TYPE_AUTOROLLBACK : Nat := 1 <<< 1

/-! ## Elements and the transaction set

Objects that C reaches through pointers live in stores: a pointer is the
index of its object in the store, `none` is the null pointer. -/

/-- Modelled from the spec: the type tag of a transaction element
(`rpmElementType`, declared outside `rpmts.h`): being installed or being
removed. -/
inductive rpmElementType where
  | TR_ADDED
  | TR_REMOVED
  deriving DecidableEq

/-- Modelled from the spec: a transaction element (`rpmte`, declared outside
`rpmts.h`) with the fields the transaction set inspects: name, EVR, type tag,
the elements it requires (dependency edges resolved by the dependency check,
as pointers into the element store) and, for an erase that accompanies an
upgrade, the pointer to the install element that caused it.  `V` is the
ordered type of EVRs. -/
structure rpmte_s (V : Type) where
  N : String
  EVR : V
  type : rpmElementType
  requires : List Nat
  dependsOn : Option Nat
  deriving DecidableEq

/-- The score entry `struct rpmtsScoreEntry_s`; `te_types` is the set of
element types the entry represents. -/
structure rpmtsScoreEntry_s where
  N : String
  te_types : List rpmElementType
  installed : Int
  erased : Int
  deriving DecidableEq

/-- The score tracker `struct rpmtsScore_s`. -/
structure rpmtsScore_s where
  entries : Int
  scores : List rpmtsScoreEntry_s
  nrefs : Int
  deriving DecidableEq

/-- The store of score trackers: `rpmtsScore` pointers index it, a freed
tracker leaves `none` behind. -/
abbrev rpmtsScoreStore := List (Option rpmtsScore_s)

/-- The transaction set `struct rpmts_s`, with the fields that element
admission, ordering, scoring and reference counting use; `te` is the store of
the elements that `order` points to.  Database handles, callbacks, signature
data, disk-space information, timers and the diagnostics of ordering
(`unorderedSuccessors`, `ntrees`, `maxDepth`) are left out. -/
structure rpmts_s (V : Type) where
  type : Nat
  te : List (rpmte_s V)
  numRemovedPackages : Int
  numAddedPackages : Int
  order : List Nat
  orderCount : Int
  score : Option Nat
  nrefs : Int
  deriving DecidableEq

/-- Modelled from the spec: result codes `rpmRC` (declared outside
`rpmts.h`), of which the header names these two. -/
inductive rpmRC where
  | RPMRC_OK
  | RPMRC_NOKEY
  deriving DecidableEq

/-- The element that pointer `p` refers to, `none` for a pointer outside the
store. -/
def rpmtsTe {V : Type} (ts : rpmts_s V) (p : Nat) : Option (rpmte_s V) := ts.te[p]?

/-- Pointer `p` refers to an element of type `t`. -/
def rpmtsTeIs {V : Type} (ts : rpmts_s V) (t : rpmElementType) (p : Nat) : Bool :=
  match rpmtsTe ts p with
  | some e => decide (e.type = t)
  | none => false

/-- Pointer `p` refers to an install element named `n`. -/
def rpmtsAddedNamed {V : Type} (ts : rpmts_s V) (n : String) (p : Nat) : Bool :=
  match rpmtsTe ts p with
  | some e => decide (e.type = rpmElementType.TR_ADDED) && decide (e.N = n)
  | none => false

/-- The install elements named `n` that the transaction holds, in order. -/
def rpmtsAddedElements {V : Type} (ts : rpmts_s V) (n : String) : List (rpmte_s V) :=
  (ts.order.filter (rpmtsAddedNamed ts n)).filterMap (rpmtsTe ts)

/-! ## Reference counting of the transaction set -/

/-- Modelled from the spec: `rpmtsUnlink`, whose body is not in `rpmts.h`.
The count is decremented; while it stays above 0 the object survives and is
returned, at 0 the object is destroyed and a null handle is returned
(specification, section 4.1).  The result is the object after the call (`none`
once destroyed) and the returned handle. -/
def rpmtsUnlink {V : Type} (ts : rpmts_s V) (_msg : String) :
    Option (rpmts_s V) × Option (rpmts_s V) :=
  let ts1 := { ts with nrefs := ts.nrefs - 1 }
  if ts1.nrefs > 0 then (some ts1, some ts1) else (none, none)

/-- Modelled from the spec: `rpmtsLink`, whose body is not in `rpmts.h`: the
count is incremented and the same object is returned. -/
def rpmtsLink {V : Type} (ts : rpmts_s V) (_msg : String) : rpmts_s V :=
  { ts with nrefs := ts.nrefs + 1 }

/-! ## Transaction scores -/

/-- One element enters the entries under construction: an entry of the same
name gains the element's type, otherwise a fresh entry is appended. -/
def scoreAddElement {V : Type} (scores : List rpmtsScoreEntry_s) (e : rpmte_s V) :
    List rpmtsScoreEntry_s :=
  if scores.any (fun se => decide (se.N = e.N)) then
    scores.map (fun se =>
      if se.N = e.N ∧ e.type ∉ se.te_types then
        { se with te_types := se.te_types ++ [e.type] }
      else se)
  else
    scores ++ [{ N := e.N, te_types := [e.type], installed := 0, erased := 0 }]

/-- Modelled from the spec: `rpmtsScoreInit`, whose body is not in
`rpmts.h`: one tracker is created with one entry per package name among the
running transaction's elements and attached to both transactions, with
reference count 2 (specification, section 4.5). -/
def rpmtsScoreInit {V : Type} (store : rpmtsScoreStore) (runningTS rollbackTS : rpmts_s V) :
    rpmRC × rpmtsScoreStore × rpmts_s V × rpmts_s V :=
  let scores := (runningTS.order.filterMap (rpmtsTe runningTS)).foldl scoreAddElement []
  let score : rpmtsScore_s := { entries := scores.length, scores := scores, nrefs := 2 }
  let p := store.length
  (rpmRC.RPMRC_OK, store ++ [some score],
    { runningTS with score := some p }, { rollbackTS with score := some p })

/-- The accessor `rpmtsGetScore`: the transaction's `score` field. -/
def rpmtsGetScore {V : Type} (ts : rpmts_s V) : Option Nat := ts.score

/-- The tracker a score pointer refers to, `none` for the null pointer and
for a freed tracker. -/
def rpmtsScoreDeref (store : rpmtsScoreStore) (score : Option Nat) : Option rpmtsScore_s :=
  match score with
  | none => none
  | some p => (store[p]?).join

/-- Modelled from the spec: `rpmtsScoreFree`, whose body is not in
`rpmts.h`: the count is decremented and the tracker, entries included, is
destroyed when it reaches 0; the returned pointer is null in every case
(`@return NULL always`). -/
def rpmtsScoreFree (store : rpmtsScoreStore) (score : Option Nat) :
    rpmtsScoreStore × Option Nat :=
  match score with
  | none => (store, none)
  | some p =>
    match rpmtsScoreDeref store (some p) with
    | none => (store, none)
    | some sc =>
      let sc1 := { sc with nrefs := sc.nrefs - 1 }
      if sc1.nrefs > 0 then (store.set p (some sc1), none)
      else (store.set p none, none)

/-- Modelled from the spec: `rpmtsScoreGetEntry`, whose body is not in
`rpmts.h`: lookup by name, absent when the name was never recorded. -/
def rpmtsScoreGetEntry (store : rpmtsScoreStore) (score : Option Nat) (N : String) :
    Option rpmtsScoreEntry_s :=
  match rpmtsScoreDeref store score with
  | none => none
  | some sc => sc.scores.find? (fun se => decide (se.N = N))

/-- The effect of a finished install or erase of element `e` on one entry:
the entry of that name records it. -/
def scoreEntryUpdate {V : Type} (e : rpmte_s V) (se : rpmtsScoreEntry_s) : rpmtsScoreEntry_s :=
  if se.N = e.N then
    match e.type with
    | rpmElementType.TR_ADDED => { se with installed := 1 }
    | rpmElementType.TR_REMOVED => { se with erased := 1 }
  else se

/-- Modelled from the spec: the score update of one executed install or erase
step, whose code is not in `rpmts.h`.  The entries are updated only if
autorollbacks are enabled and the executing transaction is not a rollback or
autorollback transaction (the header's comment on transaction scores); with
no tracker attached the update is skipped (specification, section 7). -/
def rpmtsScoreUpdate {V : Type} (autorollback : Bool) (store : rpmtsScoreStore)
    (ts : rpmts_s V) (e : rpmte_s V) : rpmtsScoreStore :=
  if autorollback = true ∧ ts.type = RPMTRANS_TYPE_NORMAL then
    match rpmtsGetScore ts with
    | none => store
    | some p =>
      match rpmtsScoreDeref store (some p) with
      | none => store
      | some sc => store.set p (some { sc with scores := sc.scores.map (scoreEntryUpdate e) })
  else store

/-! ## Element admission -/

/-- Modelled from the spec: what element admission reads from a package
header: the name, the EVR and the resolved requirements. -/
structure Header (V : Type) where
  N : String
  EVR : V
  requires : List Nat

/-- The install element that admission creates from a header. -/
def hdrTe {V : Type} (h : Header V) : rpmte_s V :=
  { N := h.N, EVR := h.EVR, type := rpmElementType.TR_ADDED,
    requires := h.requires, dependsOn := none }

/-- Modelled from the spec: `rpmtsAddInstallElement`, whose body is not in
`rpmts.h`.  `extrc` is the outcome of the external part of the call (reading
the package: 0 success, 1 I/O error, 2 needs capabilities); on failure nothing
is changed.  Otherwise, if an install element of the same name is present, the
newer EVR is kept: a header older than the element is skipped, any other
header replaces the element in place, in its slot of the store, so that its
position in `order` is kept.  If none is present the element is appended
(specification, section 4.2).  The retrieval key, the relocations and the
database scan of an upgrade are left out. -/
def rpmtsAddInstallElement {V : Type} [LinearOrder V] (ts : rpmts_s V) (h : Header V)
    (extrc : Int) : Int × rpmts_s V :=
  if extrc ≠ 0 then (extrc, ts)
  else
    match ts.order.find? (rpmtsAddedNamed ts h.N) with
    | some p =>
      match rpmtsTe ts p with
      | some old =>
        if h.EVR < old.EVR then (0, ts)
        else (0, { ts with te := ts.te.set p (hdrTe h) })
      | none => (0, ts)
    | none =>
      (0, { ts with te := ts.te ++ [hdrTe h],
                    order := ts.order ++ [ts.te.length],
                    orderCount := ts.orderCount + 1,
                    numAddedPackages := ts.numAddedPackages + 1 })

/-- The transaction after a new install element `x` was appended: `x` is
allocated at the end of the element store and its pointer at the end of
`order`. -/
def rpmtsAppended {V : Type} (ts : rpmts_s V) (x : rpmte_s V) : rpmts_s V :=
  { ts with te := ts.te ++ [x],
            order := ts.order ++ [ts.te.length],
            orderCount := ts.orderCount + 1,
            numAddedPackages := ts.numAddedPackages + 1 }

/-! ## Ordering -/

/-- Modelled from the spec: the precedence edges that the element at `p`
contributes to the ordering graph, one for each element it requires that is in
the transaction (requirements outside the transaction do not constrain the
order).  An edge `(j, k)` says that `j` is to come before `k`: an install
comes after what it requires, an erase before what it requires
(specification, section 4.4). -/
def rpmtsOrderEdgesOf {V : Type} (ts : rpmts_s V) (p : Nat) : List (Nat × Nat) :=
  match rpmtsTe ts p with
  | none => []
  | some e =>
    (e.requires.filter (fun q => decide (q ∈ ts.order))).map (fun q =>
      match e.type with
      | rpmElementType.TR_ADDED => (q, p)
      | rpmElementType.TR_REMOVED => (p, q))

/-- Modelled from the spec: the ordering graph of the transaction, built from
the dependency edges of all its elements. -/
def rpmtsOrderEdges {V : Type} (ts : rpmts_s V) : List (Nat × Nat) :=
  ts.order.flatMap (rpmtsOrderEdgesOf ts)

/-- Modelled from the spec: the working state of the topological sort
(Knuth vol. 1, p. 262, Algorithm T): `count k` is the number of direct
predecessors of `k` that are not output yet, `queue` holds the nodes ready for
output, `out` is the output so far. -/
structure tsortInfo where
  count : Nat → Nat
  queue : List Nat
  out : List Nat

/-- Steps T2 and T3: the number of relations `j ≺ k` recorded for `k`. -/
def tsortCount (edges : List (Nat × Nat)) (k : Nat) : Nat :=
  (edges.filter (fun e => decide (e.2 = k))).length

/-- The successors of `j`, one for each relation `j ≺ k`. -/
def tsortSuccessors (edges : List (Nat × Nat)) (j : Nat) : List Nat :=
  (edges.filter (fun e => decide (e.1 = j))).map (fun e => e.2)

/-- Step T4: scan for zeroes; the nodes without predecessor enter the queue. -/
def tsortInit (nodes : List Nat) (edges : List (Nat × Nat)) : tsortInfo :=
  { count := tsortCount edges,
    queue := nodes.filter (fun k => decide (tsortCount edges k = 0)),
    out := [] }

/-- Step T6 for one successor `k`: its count drops by one and `k` joins the
rear of the queue when the count reaches zero. -/
def tsortRelax (st : tsortInfo) (k : Nat) : tsortInfo :=
  { st with
    count := fun x => if x = k then st.count k - 1 else st.count x,
    queue := if st.count k - 1 = 0 then st.queue ++ [k] else st.queue }

/-- Steps T5 to T7: the front of the queue is output and removed, and its
relations are erased. -/
def tsortStep (edges : List (Nat × Nat)) (st : tsortInfo) : tsortInfo :=
  match st.queue with
  | [] => st
  | f :: q =>
    (tsortSuccessors edges f).foldl tsortRelax { st with queue := q, out := st.out ++ [f] }

/-- The loop of Algorithm T, one output per round. -/
def tsortLoop (edges : List (Nat × Nat)) : Nat → tsortInfo → tsortInfo
  | 0, st => st
  | n + 1, st => tsortLoop edges n (tsortStep edges st)

/-- Modelled from the spec: the topological sort of `nodes` under `edges`;
the result holds the nodes that could be output, in output order (all of them
unless a cycle remains). -/
def tsort (nodes : List Nat) (edges : List (Nat × Nat)) : List Nat :=
  (tsortLoop edges nodes.length (tsortInit nodes edges)).out

/-- Modelled from the spec: sort, and while elements remain unsorted discard
one edge and retry.  Which edge of a cycle is the weakest is left open by the
specification (section 9), so the choice is the parameter `zap`, which is
given the current edges and the unsorted nodes; the retries are bounded by
`fuel`, and sorting stops when `zap` offers no edge. -/
def rpmtsOrderLoop (zap : List (Nat × Nat) → List Nat → Option (Nat × Nat))
    (nodes : List Nat) : Nat → List (Nat × Nat) → List Nat
  | 0, edges => tsort nodes edges
  | fuel + 1, edges =>
    if (tsort nodes edges).length = nodes.length then tsort nodes edges
    else
      match zap edges (nodes.filter (fun p => decide (p ∉ tsort nodes edges))) with
      | none => tsort nodes edges
      | some e =>
        if e ∈ edges then rpmtsOrderLoop zap nodes fuel (edges.erase e)
        else tsort nodes edges

/-- The element at `p` is an erase whose upgrade link points to `i`. -/
def rpmtsPinnedTo {V : Type} (ts : rpmts_s V) (i p : Nat) : Bool :=
  match rpmtsTe ts p with
  | some e => decide (e.type = rpmElementType.TR_REMOVED) && decide (e.dependsOn = some i)
  | none => false

/-- The element at `p` is an erase that accompanies an upgrade: its link
points to an install element of the transaction. -/
def rpmtsUpgradeErase {V : Type} (ts : rpmts_s V) (p : Nat) : Bool :=
  ts.order.any (fun i => rpmtsTeIs ts rpmElementType.TR_ADDED i && rpmtsPinnedTo ts i p)

/-- Modelled from the spec: the final placement.  The install elements come
first, in sorted order, each followed at once by the erase elements of its
upgrade; the remaining elements follow, in sorted order. -/
def rpmtsPlacement {V : Type} (ts : rpmts_s V) (sorted : List Nat) : List Nat :=
  (sorted.filter (rpmtsTeIs ts rpmElementType.TR_ADDED)).flatMap
      (fun i => i :: sorted.filter (rpmtsPinnedTo ts i))
    ++ sorted.filter
      (fun p => !rpmtsTeIs ts rpmElementType.TR_ADDED p && !rpmtsUpgradeErase ts p)

/-- Modelled from the spec: `rpmtsOrder`, whose body is not in `rpmts.h`.
The elements are sorted topologically, with cycles broken by `zap`; the
result is the number of install elements that could not be ordered.  When it
is 0 the final placement is stored in `order` (elements left unsorted, which
then are no installs, keep their admission order behind the sorted ones);
otherwise the transaction is left as it was. -/
def rpmtsOrder {V : Type} (zap : List (Nat × Nat) → List Nat → Option (Nat × Nat))
    (ts : rpmts_s V) : Int × rpmts_s V :=
  let edges := rpmtsOrderEdges ts
  let sorted := rpmtsOrderLoop zap ts.order edges.length edges
  let unsorted := ts.order.filter (fun p => decide (p ∉ sorted))
  let nfail := (unsorted.filter (rpmtsTeIs ts rpmElementType.TR_ADDED)).length
  if nfail = 0 then (0, { ts with order := rpmtsPlacement ts (sorted ++ unsorted) })
  else ((nfail : Int), ts)

/-- Modelled from the spec: the accessor `rpmtsElement`, whose body is not in
`rpmts.h`: the element pointer at index `ix` of the order, or null. -/
def rpmtsElement {V : Type} (ts : rpmts_s V) (ix : Nat) : Option Nat := ts.order[ix]?

/-- A graph has no cycle: no node reaches itself along one or more edges. -/
def tsortAcyclic (edges : List (Nat × Nat)) : Prop :=
  ∀ v : Nat, ¬ Relation.TransGen (fun a b => (a, b) ∈ edges) v v

/-- A cycle-breaking rule: the first edge between two unsorted nodes. -/
def zapFirst (edges : List (Nat × Nat)) (unsorted : List Nat) : Option (Nat × Nat) :=
  edges.find? (fun e => decide (e.1 ∈ unsorted) && decide (e.2 ∈ unsorted))

/-- The number of relations `j ≺ k` whose `j` is not in `out`. -/
def tsortPending (edges : List (Nat × Nat)) (out : List Nat) (k : Nat) : Nat :=
  (edges.filter (fun e => decide (e.2 = k) && decide (e.1 ∉ out))).length

/-- The invariant of Algorithm T. -/
structure tsortInv (nodes : List Nat) (edges : List (Nat × Nat)) (st : tsortInfo) : Prop where
  nodup : (st.out ++ st.queue).Nodup
  sub : ∀ x ∈ st.out ++ st.queue, x ∈ nodes
  count_eq : ∀ k, st.count k = tsortPending edges st.out k
  ready : ∀ k ∈ nodes, st.count k = 0 → k ∈ st.out ++ st.queue
  zero : ∀ k ∈ st.out ++ st.queue, st.count k = 0
  order : st.out.Pairwise (fun a b => (b, a) ∉ edges)
  noself : ∀ k ∈ st.out, (k, k) ∉ edges

/-- In the list `l`, `a` comes before `b`. -/
def listBefore (l : List Nat) (a b : Nat) : Prop :=
  ∃ l1 l2 l3 : List Nat, l = l1 ++ a :: (l2 ++ b :: l3)

/-- The dependency edges of the transaction as the elements carry them: a
pair `(a, b)` for each element `a` of the transaction and each element `b` of
the transaction that `a` requires. -/
def rpmtsRequiresEdges {V : Type} (ts : rpmts_s V) : List (Nat × Nat) :=
  ts.order.flatMap (fun p =>
    match rpmtsTe ts p with
    | none => []
    | some e => (e.requires.filter (fun q => decide (q ∈ ts.order))).map (fun q => (p, q)))

/-! ## Typed evaluation of `BLOCK_ROUND` -/

/-- The conversion of an `int` to `unsigned int` (32 bits): reduction modulo
`2 ^ 32`. -/
def toUint32 (x : Int) : Nat := (x % 2 ^ 32).toNat

/-- The macro `BLOCK_ROUND(size, block)` at the operand types the header
declares for its use in `rpmtsUpdateDSI`: `size` is a `uint_32` and `block` an
`int` (`bsize`), so `block` is converted to unsigned and `size + block - 1` is
computed modulo `2 ^ 32` before the unsigned division. -/
def BLOCK_ROUND_u32 (size : Nat) (block : Int) : Nat :=
  ((size % 2 ^ 32 + toUint32 block + (2 ^ 32 - 1)) % 2 ^ 32) / toUint32 block

/-! ## Disk-space information -/

/-- The structure `struct diskspaceInfo_s`: the device number, the blocks and
inodes needed (signed), the block size and the blocks and inodes available. -/
structure diskspaceInfo_s where
  dev : Nat
  bneeded : Int
  ineeded : Int
  bsize : Int
  bavail : Int
  iavail : Int
  deriving DecidableEq

/-- Modelled from the spec: the file dispositions `rpmFileAction` (declared
outside `rpmts.h`) that the disk-space accounting tells apart: a new file, a
replaced file, a removed file, and any other disposition. -/
inductive rpmFileAction where
  | create
  | replace
  | remove
  | other
  deriving DecidableEq

/-- The update of one disk-space entry for one file (see `rpmtsUpdateDSI`). -/
def dsiUpdateEntry (dsi : diskspaceInfo_s) (fileSize prevSize fixupSize : Nat)
    (action : rpmFileAction) : diskspaceInfo_s :=
  let bneeded : Int := BLOCK_ROUND_u32 fileSize dsi.bsize
  let dsi1 : diskspaceInfo_s :=
    match action with
    | rpmFileAction.create =>
      { dsi with ineeded := dsi.ineeded + 1, bneeded := dsi.bneeded + bneeded }
    | rpmFileAction.replace =>
      { dsi with bneeded := dsi.bneeded + bneeded - BLOCK_ROUND_u32 prevSize dsi.bsize }
    | rpmFileAction.remove =>
      { dsi with ineeded := dsi.ineeded - 1, bneeded := dsi.bneeded - bneeded }
    | rpmFileAction.other => dsi
  if fixupSize ≠ 0 then
    { dsi1 with bneeded := dsi1.bneeded - BLOCK_ROUND_u32 fixupSize dsi.bsize }
  else dsi1

/-- Modelled from the spec: `rpmtsUpdateDSI`, whose body is not in `rpmts.h`,
on the `dsi` array of the transaction set.  The entry of the file system on
device `dev` is adjusted by the disposition: a new file adds `fileSize`
rounded to blocks, a replaced file adds the difference to `prevSize`, a
removed file subtracts, and the inode count follows; a non-zero `fixupSize`
is then taken off as a correction (specification, section 4.6).  Byte counts
are `uint_32` and are converted with `BLOCK_ROUND` at the declared types.
Without an entry for `dev` nothing changes. -/
def rpmtsUpdateDSI (dsi : List diskspaceInfo_s) (dev : Nat)
    (fileSize prevSize fixupSize : Nat) (action : rpmFileAction) : List diskspaceInfo_s :=
  match dsi with
  | [] => []
  | d :: rest =>
    if d.dev = dev then dsiUpdateEntry d fileSize prevSize fixupSize action :: rest
    else d :: rpmtsUpdateDSI rest dev fileSize prevSize fixupSize action

/-! ## Operation timers (`rpmtsOpX`) -/

/-- The enumeration `rpmtsOpX`: indices for timestamps. -/
inductive rpmtsOpX where
  | RPMTS_OP_TOTAL
  | RPMTS_OP_CHECK
  | RPMTS_OP_ORDER
  | RPMTS_OP_FINGERPRINT
  | RPMTS_OP_REPACKAGE
  | RPMTS_OP_INSTALL
  | RPMTS_OP_ERASE
  | RPMTS_OP_SCRIPTLETS
  | RPMTS_OP_COMPRESS
  | RPMTS_OP_UNCOMPRESS
  | RPMTS_OP_DIGEST
  | RPMTS_OP_SIGNATURE
  | RPMTS_OP_DBADD
  | RPMTS_OP_DBREMOVE
  | RPMTS_OP_DBGET
  | RPMTS_OP_DBPUT
  | RPMTS_OP_DBDEL
  | RPMTS_OP_MAX
  deriving DecidableEq

/-- The integer value the header gives each enumerator of `rpmtsOpX`. -/
def rpmtsOpX.val : rpmtsOpX → Nat
  | RPMTS_OP_TOTAL => 0
  | RPMTS_OP_CHECK => 1
  | RPMTS_OP_ORDER => 2
  | RPMTS_OP_FINGERPRINT => 3
  | RPMTS_OP_REPACKAGE => 4
  | RPMTS_OP_INSTALL => 5
  | RPMTS_OP_ERASE => 6
  | RPMTS_OP_SCRIPTLETS => 7
  | RPMTS_OP_COMPRESS => 8
  | RPMTS_OP_UNCOMPRESS => 9
  | RPMTS_OP_DIGEST => 10
  | RPMTS_OP_SIGNATURE => 11
  | RPMTS_OP_DBADD => 12
  | RPMTS_OP_DBREMOVE => 13
  | RPMTS_OP_DBGET => 14
  | RPMTS_OP_DBPUT => 15
  | RPMTS_OP_DBDEL => 16
  | RPMTS_OP_MAX => 17

/-- Every enumerator of `rpmtsOpX` other than `RPMTS_OP_MAX`, in the order of
the declaration. -/
def rpmtsOpX_indices : List rpmtsOpX :=
  [rpmtsOpX.RPMTS_OP_TOTAL, rpmtsOpX.RPMTS_OP_CHECK, rpmtsOpX.RPMTS_OP_ORDER,
   rpmtsOpX.RPMTS_OP_FINGERPRINT, rpmtsOpX.RPMTS_OP_REPACKAGE, rpmtsOpX.RPMTS_OP_INSTALL,
   rpmtsOpX.RPMTS_OP_ERASE, rpmtsOpX.RPMTS_OP_SCRIPTLETS, rpmtsOpX.RPMTS_OP_COMPRESS,
   rpmtsOpX.RPMTS_OP_UNCOMPRESS, rpmtsOpX.RPMTS_OP_DIGEST, rpmtsOpX.RPMTS_OP_SIGNATURE,
   rpmtsOpX.RPMTS_OP_DBADD, rpmtsOpX.RPMTS_OP_DBREMOVE, rpmtsOpX.RPMTS_OP_DBGET,
   rpmtsOpX.RPMTS_OP_DBPUT, rpmtsOpX.RPMTS_OP_DBDEL]

/-! ## Example inputs -/

/-- A transaction that holds one install element, `pkgB` at EVR 1, with one
reference. -/
def exampleTs : rpmts_s Nat :=
  { type := RPMTRANS_TYPE_NORMAL,
    te := [{ N := "pkgB", EVR := 1, type := rpmElementType.TR_ADDED,
             requires := [], dependsOn := none }],
    numRemovedPackages := 0, numAddedPackages := 1,
    order := [0], orderCount := 1, score := none, nrefs := 1 }

/-- A score store with one tracker, shared by two transactions, that has an
entry for `pkgB`. -/
def exampleStore : rpmtsScoreStore :=
  [some { entries := 1,
          scores := [{ N := "pkgB", te_types := [rpmElementType.TR_ADDED],
                       installed := 0, erased := 0 }],
          nrefs := 2 }]

/-- Two upgrades and two plain erases: install 0 requires install 2, the erase 1
of the first upgrade requires the erase 3 of the second, and the plain erase 4
requires the plain erase 5. -/
def exampleUpgrades : rpmts_s Nat :=
  { type := RPMTRANS_TYPE_NORMAL,
    te := [{ N := "a", EVR := 2, type := rpmElementType.TR_ADDED,
             requires := [2], dependsOn := none },
           { N := "a", EVR := 1, type := rpmElementType.TR_REMOVED,
             requires := [3], dependsOn := some 0 },
           { N := "b", EVR := 2, type := rpmElementType.TR_ADDED,
             requires := [], dependsOn := none },
           { N := "b", EVR := 1, type := rpmElementType.TR_REMOVED,
             requires := [], dependsOn := some 2 },
           { N := "f", EVR := 1, type := rpmElementType.TR_REMOVED,
             requires := [5], dependsOn := none },
           { N := "g", EVR := 1, type := rpmElementType.TR_REMOVED,
             requires := [], dependsOn := none }],
    numRemovedPackages := 4, numAddedPackages := 2,
    order := [0, 1, 2, 3, 4, 5], orderCount := 6, score := none, nrefs := 1 }

/-- An upgrade that replaces two installed instances, followed by another
install: the erases 1 and 2 both accompany install 0. -/
def exampleDoubleErase : rpmts_s Nat :=
  { type := RPMTRANS_TYPE_NORMAL,
    te := [{ N := "k", EVR := 3, type := rpmElementType.TR_ADDED,
             requires := [], dependsOn := none },
           { N := "k", EVR := 1, type := rpmElementType.TR_REMOVED,
             requires := [], dependsOn := some 0 },
           { N := "k", EVR := 2, type := rpmElementType.TR_REMOVED,
             requires := [], dependsOn := some 0 },
           { N := "j", EVR := 1, type := rpmElementType.TR_ADDED,
             requires := [], dependsOn := none }],
    numRemovedPackages := 2, numAddedPackages := 2,
    order := [0, 1, 2, 3], orderCount := 4, score := none, nrefs := 1 }

/-- Disk-space entries for two devices with 4096-byte and 1024-byte blocks. -/
def exampleDsi : List diskspaceInfo_s :=
  [{ dev := 2049, bneeded := 10, ineeded := 5, bsize := 4096, bavail := 100, iavail := 100 },
   { dev := 2050, bneeded := 7, ineeded := 3, bsize := 1024, bavail := 50, iavail := 50 }]

/-! # Theorems -/

/-! ## Helper lemmas: integer division and bit masks -/

theorem BLOCK_ROUND_eq_ediv (size block : Int) (hs : 0 ≤ size) (hb : 0 < block) :
    BLOCK_ROUND size block = (size + block - 1) / block := by
  unfold BLOCK_ROUND
  exact Int.tdiv_eq_ediv (by omega) (by omega)

theorem and_eq_right_iff_testBit (v m : Nat) :
    v &&& m = m ↔ ∀ i, m.testBit i = true → v.testBit i = true := by
  constructor
  · intro h i hi
    have := congrArg (fun x => x.testBit i) h
    simp only [Nat.testBit_and, hi, Bool.and_true] at this
    exact this
  · intro h
    apply Nat.eq_of_testBit_eq
    intro i
    rw [Nat.testBit_and]
    cases hm : m.testBit i
    · simp
    · simp [h i hm]

theorem vsflagsHas_or_iff (v a b : Nat) :
    vsflagsHas v (a ||| b) = true ↔ vsflagsHas v a = true ∧ vsflagsHas v b = true := by
  simp only [vsflagsHas, beq_iff_eq, and_eq_right_iff_testBit, Nat.testBit_or, Bool.or_eq_true]
  constructor
  · intro h
    exact ⟨fun i hi => h i (Or.inl hi), fun i hi => h i (Or.inr hi)⟩
  · rintro ⟨ha, hb⟩ i (hi | hi)
    · exact ha i hi
    · exact hb i hi

theorem vsflagsHas_or4_iff (v a b c d : Nat) :
    vsflagsHas v (a ||| b ||| c ||| d) = true ↔
      vsflagsHas v a = true ∧ vsflagsHas v b = true ∧
      vsflagsHas v c = true ∧ vsflagsHas v d = true := by
  rw [vsflagsHas_or_iff, vsflagsHas_or_iff, vsflagsHas_or_iff]
  tauto

theorem and_set_of_disjoint (v f g : Nat) (h : f &&& g = 0) :
    vsflagsSet v f &&& g = v &&& g := by
  apply Nat.eq_of_testBit_eq
  intro i
  have hi := congrArg (fun x => x.testBit i) h
  simp only [Nat.testBit_and, Nat.zero_testBit] at hi
  simp only [vsflagsSet, Nat.testBit_and, Nat.testBit_or]
  cases hf : f.testBit i <;> cases hg : g.testBit i <;> simp_all

theorem and_clear_of_disjoint (v f g : Nat) (h : f &&& g = 0)
    (hg : g &&& 0xFFFFFFFF = g) :
    vsflagsClear v f &&& g = v &&& g := by
  apply Nat.eq_of_testBit_eq
  intro i
  have hi := congrArg (fun x => x.testBit i) h
  have hgi := congrArg (fun x => x.testBit i) hg
  simp only [Nat.testBit_and, Nat.zero_testBit] at hi hgi
  simp only [vsflagsClear, Nat.testBit_and, Nat.testBit_xor]
  cases hf : f.testBit i <;> cases hg : g.testBit i <;> simp_all

theorem testBit_of_lt_two_pow_20 (m i : Nat) (hm : m < 2 ^ 20) (hi : 20 ≤ i) :
    m.testBit i = false := by
  apply Nat.testBit_lt_two_pow
  calc m < 2 ^ 20 := hm
    _ ≤ 2 ^ i := Nat.pow_le_pow_right (by decide) hi

/-! ## C1: `BLOCK_ROUND` is ceiling division -/

/-- C1: for `size ≥ 0` and `block > 0`, `BLOCK_ROUND(size, block)` is the least
integer `r` with `r * block ≥ size`, i.e. the ceiling of `size / block`. -/
theorem BLOCK_ROUND_is_ceiling (size block : Int) (hs : 0 ≤ size) (hb : 0 < block) :
    size ≤ BLOCK_ROUND size block * block ∧
    (∀ r : Int, size ≤ r * block → BLOCK_ROUND size block ≤ r) ∧
    BLOCK_ROUND size block = ⌈(size : ℚ) / (block : ℚ)⌉ := by
  have hq := BLOCK_ROUND_eq_ediv size block hs hb
  have h1 := Int.emod_add_ediv (size + block - 1) block
  have h2 := Int.emod_nonneg (size + block - 1) (ne_of_gt hb)
  have h3 := Int.emod_lt_of_pos (size + block - 1) hb
  rw [← hq] at h1
  have hle : size ≤ BLOCK_ROUND size block * block := by
    rw [mul_comm]; omega
  have hmin : ∀ r : Int, size ≤ r * block → BLOCK_ROUND size block ≤ r := by
    intro r hr
    have hlt : BLOCK_ROUND size block * block < (r + 1) * block := by
      have : (r + 1) * block = r * block + block := by ring
      rw [mul_comm (BLOCK_ROUND size block) block]
      omega
    have := lt_of_mul_lt_mul_right hlt (le_of_lt hb)
    omega
  refine ⟨hle, hmin, ?_⟩
  symm
  rw [Int.ceil_eq_iff]
  have hbq : (0 : ℚ) < (block : ℚ) := by exact_mod_cast hb
  constructor
  · rw [lt_div_iff₀ hbq]
    have : (BLOCK_ROUND size block - 1) * block < size := by
      have : (BLOCK_ROUND size block - 1) * block
          = block * BLOCK_ROUND size block - block := by ring
      omega
    exact_mod_cast this
  · rw [div_le_iff₀ hbq]
    exact_mod_cast hle

/-- C1 at a concrete input: 4097 bytes in 4096-byte blocks need 2 blocks. -/
theorem BLOCK_ROUND_is_ceiling_witness :
    (0 : Int) ≤ 4097 ∧ (0 : Int) < 4096 ∧ BLOCK_ROUND 4097 4096 = 2 ∧
    (4097 : Int) ≤ BLOCK_ROUND 4097 4096 * 4096 ∧
    (∀ r : Int, 4097 ≤ r * 4096 → BLOCK_ROUND 4097 4096 ≤ r) ∧
    BLOCK_ROUND 4097 4096 = ⌈((4097 : Int) : ℚ) / ((4096 : Int) : ℚ)⌉ :=
  ⟨by decide, by decide, by decide,
   BLOCK_ROUND_is_ceiling 4097 4096 (by decide) (by decide)⟩

/-! ## C2: `adj_fs_blocks` and the floor of `raw * 21 / 20` -/

/-- C2, refuted as stated: at `raw = -1` the macro yields `-1`, while the
floor of `-21 / 20` is `-2`. -/
theorem adj_fs_blocks_not_floor_at_neg_one :
    adj_fs_blocks (-1) = -1 ∧ ⌊(((-1 : Int) * 21 : Int) : ℚ) / 20⌋ = -2 ∧
    adj_fs_blocks (-1) ≠ ⌊(((-1 : Int) * 21 : Int) : ℚ) / 20⌋ := by
  have h : ⌊(((-1 : Int) * 21 : Int) : ℚ) / 20⌋ = -2 := by
    rw [Int.floor_eq_iff]; norm_num
  rw [h]; decide

/-- C2, amended: `adj_fs_blocks(raw)` is `raw * 21 / 20` rounded toward zero;
it is the floor of `raw * 21 / 20` for every `raw ≥ 0`, and the ceiling for
every `raw ≤ 0`. -/
theorem adj_fs_blocks_rounds_toward_zero (raw : Int) :
    (0 ≤ raw → adj_fs_blocks raw = ⌊((raw * 21 : Int) : ℚ) / 20⌋) ∧
    (raw ≤ 0 → adj_fs_blocks raw = ⌈((raw * 21 : Int) : ℚ) / 20⌉) := by
  constructor
  · intro h
    have e : adj_fs_blocks raw = (raw * 21) / 20 := by
      unfold adj_fs_blocks
      exact Int.tdiv_eq_ediv (by omega) (by omega)
    rw [e]; symm
    rw [Int.floor_eq_iff]
    constructor
    · rw [le_div_iff₀ (by norm_num)]
      have : (raw * 21) / 20 * 20 ≤ raw * 21 := by omega
      exact_mod_cast this
    · rw [div_lt_iff₀ (by norm_num)]
      have : raw * 21 < ((raw * 21) / 20 + 1) * 20 := by omega
      exact_mod_cast this
  · intro h
    have e : adj_fs_blocks raw = - ((- (raw * 21)) / 20) := by
      unfold adj_fs_blocks
      have h1 : raw * 21 = - (- (raw * 21)) := by ring
      rw [h1, Int.neg_tdiv, Int.tdiv_eq_ediv (by omega) (by omega)]
      simp
    rw [e]; symm
    rw [Int.ceil_eq_iff]
    constructor
    · rw [lt_div_iff₀ (by norm_num)]
      have : (- ((- (raw * 21)) / 20) - 1) * 20 < raw * 21 := by omega
      exact_mod_cast this
    · rw [div_le_iff₀ (by norm_num)]
      have : raw * 21 ≤ (- ((- (raw * 21)) / 20)) * 20 := by omega
      exact_mod_cast this

/-- C2 amended, at concrete inputs: 106 blocks inflate to 111, the floor of
`2226 / 20`; -106 blocks inflate to -111, the ceiling of `-2226 / 20`. -/
theorem adj_fs_blocks_rounds_toward_zero_witness :
    adj_fs_blocks 106 = 111 ∧
    adj_fs_blocks 106 = ⌊(((106 : Int) * 21 : Int) : ℚ) / 20⌋ ∧
    adj_fs_blocks (-106) = -111 ∧
    adj_fs_blocks (-106) = ⌈(((-106 : Int) * 21 : Int) : ℚ) / 20⌉ :=
  ⟨by decide, (adj_fs_blocks_rounds_toward_zero 106).1 (by decide),
   by decide, (adj_fs_blocks_rounds_toward_zero (-106)).2 (by decide)⟩

/-! ## C3: the convenience masks -/

/-- C3: each convenience mask is the OR of its four member flags and has
exactly the bits of those flags (8, 9, 16, 17 for digests; 10, 11, 18, 19 for
signatures; 8..11 for the header; 16..19 for the payload); a flag value has
all bits of a mask set iff it has each member flag set. -/
theorem convenience_masks_are_or_of_members :
    (RPMVSF_NOSHA1HEADER = 2 ^ 8 ∧ RPMVSF_NOMD5HEADER = 2 ^ 9 ∧
      RPMVSF_NODSAHEADER = 2 ^ 10 ∧ RPMVSF_NORSAHEADER = 2 ^ 11 ∧
      RPMVSF_NOSHA1 = 2 ^ 16 ∧ RPMVSF_NOMD5 = 2 ^ 17 ∧
      RPMVSF_NODSA = 2 ^ 18 ∧ RPMVSF_NORSA = 2 ^ 19) ∧
    (_RPMVSF_NODIGESTS = 2 ^ 8 + 2 ^ 9 + 2 ^ 16 + 2 ^ 17 ∧
      _RPMVSF_NOSIGNATURES = 2 ^ 10 + 2 ^ 11 + 2 ^ 18 + 2 ^ 19 ∧
      _RPMVSF_NOHEADER = 2 ^ 8 + 2 ^ 9 + 2 ^ 10 + 2 ^ 11 ∧
      _RPMVSF_NOPAYLOAD = 2 ^ 16 + 2 ^ 17 + 2 ^ 18 + 2 ^ 19) ∧
    (∀ i, (_RPMVSF_NODIGESTS.testBit i = true ↔ i = 8 ∨ i = 9 ∨ i = 16 ∨ i = 17) ∧
      (_RPMVSF_NOSIGNATURES.testBit i = true ↔ i = 10 ∨ i = 11 ∨ i = 18 ∨ i = 19) ∧
      (_RPMVSF_NOHEADER.testBit i = true ↔ i = 8 ∨ i = 9 ∨ i = 10 ∨ i = 11) ∧
      (_RPMVSF_NOPAYLOAD.testBit i = true ↔ i = 16 ∨ i = 17 ∨ i = 18 ∨ i = 19)) ∧
    (∀ v : Nat,
      (vsflagsHas v _RPMVSF_NODIGESTS = true ↔
        vsflagsHas v RPMVSF_NOSHA1HEADER = true ∧ vsflagsHas v RPMVSF_NOMD5HEADER = true ∧
        vsflagsHas v RPMVSF_NOSHA1 = true ∧ vsflagsHas v RPMVSF_NOMD5 = true) ∧
      (vsflagsHas v _RPMVSF_NOSIGNATURES = true ↔
        vsflagsHas v RPMVSF_NODSAHEADER = true ∧ vsflagsHas v RPMVSF_NORSAHEADER = true ∧
        vsflagsHas v RPMVSF_NODSA = true ∧ vsflagsHas v RPMVSF_NORSA = true) ∧
      (vsflagsHas v _RPMVSF_NOHEADER = true ↔
        vsflagsHas v RPMVSF_NOSHA1HEADER = true ∧ vsflagsHas v RPMVSF_NOMD5HEADER = true ∧
        vsflagsHas v RPMVSF_NODSAHEADER = true ∧ vsflagsHas v RPMVSF_NORSAHEADER = true) ∧
      (vsflagsHas v _RPMVSF_NOPAYLOAD = true ↔
        vsflagsHas v RPMVSF_NOSHA1 = true ∧ vsflagsHas v RPMVSF_NOMD5 = true ∧
        vsflagsHas v RPMVSF_NODSA = true ∧ vsflagsHas v RPMVSF_NORSA = true)) := by
  refine ⟨by decide, by decide, ?_, ?_⟩
  · intro i
    by_cases hi : i < 20
    · interval_cases i <;> decide
    · have h20 : 20 ≤ i := by omega
      rw [testBit_of_lt_two_pow_20 _ i (by decide) h20,
        testBit_of_lt_two_pow_20 _ i (by decide) h20,
        testBit_of_lt_two_pow_20 _ i (by decide) h20,
        testBit_of_lt_two_pow_20 _ i (by decide) h20]
      refine ⟨?_, ?_, ?_, ?_⟩ <;> constructor <;> intro h <;> first | (exfalso; omega) | cases h
  · intro v
    exact ⟨vsflagsHas_or4_iff v _ _ _ _, vsflagsHas_or4_iff v _ _ _ _,
      vsflagsHas_or4_iff v _ _ _ _, vsflagsHas_or4_iff v _ _ _ _⟩

/-! ## C4: the verification flags are independent single bits -/

/-- C4: every non-default enumerator is a power of two, two distinct
enumerators share no bit, setting or clearing one never changes whether
another is set, and `RPMVSF_DEFAULT` is 0 and meets no flag and no mask. -/
theorem rpmVSFlags_independent :
    (∀ f ∈ rpmVSFlags_enumerators, ∃ k, k < 32 ∧ f = 2 ^ k) ∧
    (∀ f ∈ rpmVSFlags_enumerators, ∀ g ∈ rpmVSFlags_enumerators,
      f ≠ g → f &&& g = 0) ∧
    (∀ v : Nat, ∀ f ∈ rpmVSFlags_enumerators, ∀ g ∈ rpmVSFlags_enumerators, f ≠ g →
      vsflagsHas (vsflagsSet v f) g = vsflagsHas v g ∧
      vsflagsHas (vsflagsClear v f) g = vsflagsHas v g) ∧
    RPMVSF_DEFAULT = 0 ∧
    (∀ f ∈ rpmVSFlags_enumerators,
      RPMVSF_DEFAULT &&& f = 0 ∧ vsflagsHas RPMVSF_DEFAULT f = false) ∧
    (∀ m ∈ rpmVSFlags_masks,
      RPMVSF_DEFAULT &&& m = 0 ∧ vsflagsHas RPMVSF_DEFAULT m = false) := by
  have hdisj : ∀ f ∈ rpmVSFlags_enumerators, ∀ g ∈ rpmVSFlags_enumerators,
      f ≠ g → f &&& g = 0 := by decide
  have hrange : ∀ g ∈ rpmVSFlags_enumerators, g &&& 0xFFFFFFFF = g := by decide
  refine ⟨by decide, hdisj, ?_, rfl, by decide, by decide⟩
  intro v f hf g hg hne
  constructor
  · simp only [vsflagsHas, and_set_of_disjoint v f g (hdisj f hf g hg hne)]
  · simp only [vsflagsHas, and_clear_of_disjoint v f g (hdisj f hf g hg hne) (hrange g hg)]

/-- C4 at a concrete input: setting or clearing `RPMVSF_NOMD5` in the value
`RPMVSF_NODSA` leaves the `RPMVSF_NODSA` test true. -/
theorem rpmVSFlags_independent_witness :
    vsflagsHas (vsflagsSet RPMVSF_NODSA RPMVSF_NOMD5) RPMVSF_NODSA
      = vsflagsHas RPMVSF_NODSA RPMVSF_NODSA ∧
    vsflagsHas (vsflagsClear RPMVSF_NODSA RPMVSF_NOMD5) RPMVSF_NODSA
      = vsflagsHas RPMVSF_NODSA RPMVSF_NODSA ∧
    vsflagsHas RPMVSF_NODSA RPMVSF_NODSA = true :=
  ⟨(rpmVSFlags_independent.2.2.1 RPMVSF_NODSA RPMVSF_NOMD5 (by decide)
      RPMVSF_NODSA (by decide) (by decide)).1,
   (rpmVSFlags_independent.2.2.1 RPMVSF_NODSA RPMVSF_NOMD5 (by decide)
      RPMVSF_NODSA (by decide) (by decide)).2,
   by decide⟩

/-! ## Helper lemmas: topological sort and final placement -/

/-- Erasing the relations of an output node: every count drops by the number of
relations erased, and exactly the successors whose count reaches zero join the
rear of the queue, each once. -/
theorem tsortRelax_foldl (l : List Nat) :
    ∀ st : tsortInfo, (∀ k, l.count k ≤ st.count k) →
      (l.foldl tsortRelax st).out = st.out ∧
      (∀ k, (l.foldl tsortRelax st).count k = st.count k - l.count k) ∧
      ∃ L : List Nat, (l.foldl tsortRelax st).queue = st.queue ++ L ∧ L.Nodup ∧
        ∀ k, k ∈ L ↔ k ∈ l ∧ st.count k - l.count k = 0 := by
  induction l with
  | nil =>
    intro st _
    exact ⟨rfl, fun k => by simp, [], by simp, List.nodup_nil, fun k => by simp⟩
  | cons a t ih =>
    intro st h
    have hcnt : ∀ k, (a :: t).count k = t.count k + (if a = k then 1 else 0) := by
      intro k
      rw [List.count_cons]
      simp
    have ha : t.count a + 1 ≤ st.count a := by
      have := h a
      rw [hcnt a] at this
      simpa using this
    have h1 : ∀ k, t.count k ≤ (tsortRelax st a).count k := by
      intro k
      have hk := h k
      rw [hcnt k] at hk
      simp only [tsortRelax]
      by_cases hka : k = a
      · subst hka; simp; omega
      · have : ¬ a = k := fun e => hka e.symm
        simp [hka, this] at hk ⊢
        exact hk
    obtain ⟨hout, hc, L, hq, hnd, hmem⟩ := ih (tsortRelax st a) h1
    rw [List.foldl_cons]
    refine ⟨by rw [hout]; rfl, ?_, ?_⟩
    · intro k
      rw [hc k, hcnt k]
      simp only [tsortRelax]
      by_cases hka : k = a
      · subst hka; simp; omega
      · have : ¬ a = k := fun e => hka e.symm
        simp [hka, this]
    · by_cases hz : st.count a - 1 = 0
      · have hta : t.count a = 0 := by omega
        have hat : a ∉ t := List.count_eq_zero.mp hta
        refine ⟨a :: L, ?_, ?_, ?_⟩
        · rw [hq]; simp [tsortRelax, hz]
        · refine List.nodup_cons.mpr ⟨?_, hnd⟩
          intro haL
          exact hat ((hmem a).mp haL).1
        · intro k
          rw [List.mem_cons, hmem k, hcnt k]
          simp only [tsortRelax]
          by_cases hka : k = a
          · subst hka
            simp
            omega
          · have : ¬ a = k := fun e => hka e.symm
            simp [hka, this]
      · refine ⟨L, ?_, hnd, ?_⟩
        · rw [hq]; simp [tsortRelax, hz]
        · intro k
          rw [hmem k, hcnt k]
          simp only [tsortRelax]
          by_cases hka : k = a
          · subst hka
            simp only [if_true, List.mem_cons, true_or, true_and]
            constructor
            · rintro ⟨_, h0⟩; omega
            · intro h0
              have : 0 < t.count k := by omega
              exact ⟨List.count_pos_iff.mp this, by omega⟩
          · have : ¬ a = k := fun e => hka e.symm
            simp [hka, this]

theorem tsortPending_snoc (edges : List (Nat × Nat)) (out : List Nat) (f k : Nat)
    (hf : f ∉ out) :
    tsortPending edges (out ++ [f]) k + (tsortSuccessors edges f).count k
      = tsortPending edges out k := by
  unfold tsortPending tsortSuccessors
  induction edges with
  | nil => simp
  | cons e t ih =>
    simp only [List.filter_cons]
    by_cases h2 : e.2 = k <;> by_cases h1 : e.1 = f
    · have : e.1 ∉ out := by rw [h1]; exact hf
      simp [h1, h2, this, hf, List.count_cons] at ih ⊢
      omega
    · by_cases h3 : e.1 ∈ out
      · simp [h1, h2, h3] at ih ⊢
        omega
      · simp [h1, h2, h3] at ih ⊢
        omega
    · simp [h1, h2, List.count_cons] at ih ⊢
      omega
    · simp [h1, h2] at ih ⊢
      omega

theorem tsortPending_pos_iff (edges : List (Nat × Nat)) (out : List Nat) (k : Nat) :
    0 < tsortPending edges out k ↔ ∃ j, (j, k) ∈ edges ∧ j ∉ out := by
  unfold tsortPending
  rw [List.length_pos_iff_exists_mem]
  constructor
  · rintro ⟨e, he⟩
    rw [List.mem_filter] at he
    simp only [Bool.and_eq_true, decide_eq_true_eq] at he
    refine ⟨e.1, ?_, he.2.2⟩
    have : (e.1, k) = e := by rw [← he.2.1]
    rw [this]; exact he.1
  · rintro ⟨j, hj, hn⟩
    exact ⟨(j, k), by simp [List.mem_filter, hj, hn]⟩

theorem tsortPending_nil (edges : List (Nat × Nat)) (k : Nat) :
    tsortPending edges [] k = tsortCount edges k := by
  simp [tsortPending, tsortCount]

theorem tsortSuccessors_mem (edges : List (Nat × Nat)) (f k : Nat) :
    k ∈ tsortSuccessors edges f ↔ (f, k) ∈ edges := by
  unfold tsortSuccessors
  simp only [List.mem_map, List.mem_filter, decide_eq_true_eq]
  constructor
  · rintro ⟨e, ⟨he, h1⟩, h2⟩
    have : (f, k) = e := by rw [← h1, ← h2]
    rw [this]; exact he
  · intro h
    exact ⟨(f, k), ⟨h, rfl⟩, rfl⟩

theorem tsortInit_inv (nodes : List Nat) (edges : List (Nat × Nat)) (hn : nodes.Nodup) :
    tsortInv nodes edges (tsortInit nodes edges) where
  nodup := by simpa [tsortInit] using hn.filter _
  sub := by
    intro x hx
    simp only [tsortInit, List.nil_append, List.mem_filter] at hx
    exact hx.1
  count_eq := by intro k; simp [tsortInit, tsortPending_nil]
  ready := by
    intro k hk h0
    simp only [tsortInit] at h0 ⊢
    simp [List.mem_filter, hk, h0]
  zero := by
    intro k hk
    simp only [tsortInit, List.nil_append, List.mem_filter, decide_eq_true_eq] at hk ⊢
    exact hk.2
  order := by simp [tsortInit]
  noself := by simp [tsortInit]

/-- One round of Algorithm T keeps the invariant. -/
theorem tsortStep_inv (nodes : List Nat) (edges : List (Nat × Nat)) (st : tsortInfo)
    (hE : ∀ e ∈ edges, e.1 ∈ nodes ∧ e.2 ∈ nodes) (inv : tsortInv nodes edges st) :
    tsortInv nodes edges (tsortStep edges st) := by
  unfold tsortStep
  cases hq : st.queue with
  | nil => simpa using inv
  | cons f q =>
    simp only
    have hnd := inv.nodup
    rw [hq] at hnd
    have hfo : f ∉ st.out := by
      intro h
      have := (List.nodup_append.mp hnd).2.2
      exact this h (List.mem_cons_self f q) 
    have hzero : ∀ k ∈ st.out ++ f :: q, st.count k = 0 := by
      intro k hk; apply inv.zero; rw [hq]; exact hk
    have hsnoc := tsortPending_snoc edges st.out f
    have pre : ∀ k, (tsortSuccessors edges f).count k
        ≤ ({ st with queue := q, out := st.out ++ [f] } : tsortInfo).count k := by
      intro k
      have := hsnoc k hfo
      have := inv.count_eq k
      simp only
      omega
    obtain ⟨hout, hc, L, hQ, hLnd, hLmem⟩ :=
      tsortRelax_foldl (tsortSuccessors edges f) { st with queue := q, out := st.out ++ [f] } pre
    simp only at hout hc hQ hLmem
    have hLprop : ∀ k ∈ L, (f, k) ∈ edges ∧ st.count k ≠ 0 := by
      intro k hk
      have h1 := (hLmem k).mp hk
      have h2 : 0 < (tsortSuccessors edges f).count k := List.count_pos_iff.mpr h1.1
      have h3 := pre k
      simp only at h3
      exact ⟨(tsortSuccessors_mem edges f k).mp h1.1, by omega⟩
    have hLdisj : ∀ k ∈ L, k ∉ st.out ++ f :: q := by
      intro k hk hmem
      exact (hLprop k hk).2 (hzero k hmem)
    have hcount : ∀ k, (List.foldl tsortRelax { st with queue := q, out := st.out ++ [f] }
        (tsortSuccessors edges f)).count k = tsortPending edges (st.out ++ [f]) k := by
      intro k
      rw [hc k]
      have := hsnoc k hfo
      have := inv.count_eq k
      omega
    have hshape : (st.out ++ [f]) ++ (q ++ L) = (st.out ++ f :: q) ++ L := by simp
    refine ⟨?_, ?_, ?_, ?_, ?_, ?_, ?_⟩
    · rw [hout, hQ, hshape]
      refine List.Nodup.append hnd hLnd ?_
      intro k hk1 hk2
      exact hLdisj k hk2 hk1
    · rw [hout, hQ, hshape]
      intro x hx
      rcases List.mem_append.mp hx with hx | hx
      · apply inv.sub; rw [hq]; exact hx
      · exact (hE _ (hLprop x hx).1).2
    · rw [hout]; exact hcount
    · intro k hk h0
      rw [hout, hQ, hshape]
      rw [hc k] at h0
      by_cases hz : st.count k = 0
      · have := inv.ready k hk hz
        rw [hq] at this
        exact List.mem_append_left _ this
      · apply List.mem_append_right
        rw [hLmem k]
        refine ⟨?_, h0⟩
        apply List.count_pos_iff.mp
        omega
    · rw [hout, hQ, hshape]
      intro k hk
      rw [hc k]
      rcases List.mem_append.mp hk with hk | hk
      · rw [hzero k hk]; simp
      · exact ((hLmem k).mp hk).2
    · rw [hout, List.pairwise_append]
      refine ⟨inv.order, List.pairwise_singleton _ _, ?_⟩
      intro a ha b hb
      rw [List.mem_singleton] at hb
      subst hb
      intro hedge
      have h0 := hzero a (List.mem_append_left _ ha)
      rw [inv.count_eq a] at h0
      have := (tsortPending_pos_iff edges st.out a).mpr ⟨b, hedge, hfo⟩
      omega
    · rw [hout]
      intro k hk hedge
      rcases List.mem_append.mp hk with hk | hk
      · exact inv.noself k hk hedge
      · rw [List.mem_singleton] at hk
        subst hk
        have h0 := hzero k (List.mem_append_right _ (List.mem_cons_self k q))
        rw [inv.count_eq k] at h0
        have := (tsortPending_pos_iff edges st.out k).mpr ⟨k, hedge, hfo⟩
        omega

theorem tsortRelax_foldl_out (l : List Nat) :
    ∀ st : tsortInfo, (l.foldl tsortRelax st).out = st.out := by
  induction l with
  | nil => intro st; rfl
  | cons a t ih => intro st; rw [List.foldl_cons, ih]; rfl

theorem tsortStep_nil (edges : List (Nat × Nat)) (st : tsortInfo) (h : st.queue = []) :
    tsortStep edges st = st := by
  unfold tsortStep; rw [h]

theorem tsortStep_out_length (edges : List (Nat × Nat)) (st : tsortInfo) (h : st.queue ≠ []) :
    (tsortStep edges st).out.length = st.out.length + 1 := by
  unfold tsortStep
  cases hq : st.queue with
  | nil => exact absurd hq h
  | cons f q => simp [tsortRelax_foldl_out]

theorem tsortLoop_nil (edges : List (Nat × Nat)) :
    ∀ (n : Nat) (st : tsortInfo), st.queue = [] → tsortLoop edges n st = st := by
  intro n
  induction n with
  | zero => intro st _; rfl
  | succ n ih =>
    intro st h
    simp only [tsortLoop]
    rw [tsortStep_nil edges st h]
    exact ih st h

/-- The loop keeps the invariant, and after `n` rounds either the queue is
empty or `n` more nodes are output. -/
theorem tsortLoop_inv (nodes : List Nat) (edges : List (Nat × Nat))
    (hE : ∀ e ∈ edges, e.1 ∈ nodes ∧ e.2 ∈ nodes) :
    ∀ (n : Nat) (st : tsortInfo), tsortInv nodes edges st →
      tsortInv nodes edges (tsortLoop edges n st) ∧
      ((tsortLoop edges n st).queue = [] ∨
        st.out.length + n ≤ (tsortLoop edges n st).out.length) := by
  intro n
  induction n with
  | zero => intro st inv; exact ⟨inv, Or.inr (by simp [tsortLoop])⟩
  | succ n ih =>
    intro st inv
    simp only [tsortLoop]
    by_cases hq : st.queue = []
    · rw [tsortStep_nil edges st hq, tsortLoop_nil edges n st hq]
      exact ⟨inv, Or.inl hq⟩
    · obtain ⟨h1, h2⟩ := ih (tsortStep edges st) (tsortStep_inv nodes edges st hE inv)
      refine ⟨h1, ?_⟩
      rcases h2 with h2 | h2
      · exact Or.inl h2
      · right
        rw [tsortStep_out_length edges st hq] at h2
        omega

/-- What Algorithm T guarantees for every graph over the nodes. -/
theorem tsort_spec (nodes : List Nat) (edges : List (Nat × Nat)) (hn : nodes.Nodup)
    (hE : ∀ e ∈ edges, e.1 ∈ nodes ∧ e.2 ∈ nodes) :
    (tsort nodes edges).Nodup ∧
    (∀ x ∈ tsort nodes edges, x ∈ nodes) ∧
    (tsort nodes edges).Pairwise (fun a b => (b, a) ∉ edges) ∧
    (∀ j k, (j, k) ∈ edges → k ∈ tsort nodes edges → j ∈ tsort nodes edges ∧ j ≠ k) ∧
    (∀ k ∈ nodes, k ∉ tsort nodes edges → ∃ j, (j, k) ∈ edges ∧ j ∉ tsort nodes edges) := by
  unfold tsort
  obtain ⟨inv, hfin⟩ := tsortLoop_inv nodes edges hE nodes.length _ (tsortInit_inv nodes edges hn)
  have hnd : (tsortLoop edges nodes.length (tsortInit nodes edges)).out.Nodup :=
    (List.nodup_append.mp inv.nodup).1
  have hsub : ∀ x ∈ (tsortLoop edges nodes.length (tsortInit nodes edges)).out, x ∈ nodes :=
    fun x hx => inv.sub x (List.mem_append_left _ hx)
  refine ⟨hnd, hsub, inv.order, ?_, ?_⟩
  · intro j k hjk hk
    have h0 := inv.zero k (List.mem_append_left _ hk)
    rw [inv.count_eq k] at h0
    constructor
    · by_contra hj
      have := (tsortPending_pos_iff edges _ k).mpr ⟨j, hjk, hj⟩
      omega
    · intro e
      subst e
      exact inv.noself j hk hjk
  · intro k hk hnk
    rcases hfin with hq | hlen
    · have hc : (tsortLoop edges nodes.length (tsortInit nodes edges)).count k ≠ 0 := by
        intro h0
        have := inv.ready k hk h0
        rw [hq, List.append_nil] at this
        exact hnk this
      rw [inv.count_eq k] at hc
      exact (tsortPending_pos_iff edges _ k).mp (by omega)
    · exfalso
      have hlen' : nodes.length
          ≤ (tsortLoop edges nodes.length (tsortInit nodes edges)).out.length := by
        simp only [tsortInit, List.length_nil, Nat.zero_add] at hlen
        exact hlen
      have hperm := (List.Nodup.subperm hnd hsub).perm_of_length_le hlen'
      exact hnk (hperm.mem_iff.mpr hk)

theorem tsortAcyclic_of_rank (edges : List (Nat × Nat)) (rank : Nat → Nat)
    (h : ∀ e ∈ edges, rank e.1 < rank e.2) : tsortAcyclic edges := by
  have key : ∀ a b, Relation.TransGen (fun a b => (a, b) ∈ edges) a b → rank a < rank b := by
    intro a b hab
    induction hab with
    | single hab => exact h _ hab
    | tail _ hbc ih => exact lt_trans ih (h _ hbc)
  intro v hv
  exact lt_irrefl _ (key v v hv)

/-- On a graph without cycle Algorithm T outputs every node. -/
theorem tsort_complete (nodes : List Nat) (edges : List (Nat × Nat)) (hn : nodes.Nodup)
    (hE : ∀ e ∈ edges, e.1 ∈ nodes ∧ e.2 ∈ nodes) (hac : tsortAcyclic edges) :
    ∀ k ∈ nodes, k ∈ tsort nodes edges := by
  obtain ⟨_, _, _, _, hstuck⟩ := tsort_spec nodes edges hn hE
  let r : {x // x ∈ nodes} → {x // x ∈ nodes} → Prop :=
    fun a b => Relation.TransGen (fun a b => (a, b) ∈ edges) a.1 b.1
  haveI : IsTrans {x // x ∈ nodes} r := ⟨fun a b c hab hbc => Relation.TransGen.trans hab hbc⟩
  haveI : IsIrrefl {x // x ∈ nodes} r := ⟨fun a ha => hac a.1 ha⟩
  have wf : WellFounded r := Finite.wellFounded_of_trans_of_irrefl r
  intro k hk
  by_contra hnk
  obtain ⟨m, hm, hmin⟩ := wf.has_min {x | x.1 ∉ tsort nodes edges} ⟨⟨k, hk⟩, hnk⟩
  obtain ⟨j, hj, hjn⟩ := hstuck m.1 m.2 hm
  exact hmin ⟨j, (hE _ hj).1⟩ hjn (Relation.TransGen.single hj)

theorem listBefore_index (l : List Nat) (a b : Nat) (h : listBefore l a b) :
    ∃ i j : Nat, i < j ∧ l[i]? = some a ∧ l[j]? = some b := by
  obtain ⟨l1, l2, l3, rfl⟩ := h
  refine ⟨l1.length, l1.length + 1 + l2.length, by omega, ?_, ?_⟩
  · rw [List.getElem?_append_right (le_refl _)]; simp
  rw [List.getElem?_append_right (by omega)]
  have e : l1.length + 1 + l2.length - l1.length = l2.length + 1 := by omega
  rw [e, List.getElem?_cons_succ, List.getElem?_append_right (by omega)]
  simp

theorem listBefore_append_left (l r : List Nat) (a b : Nat) (h : listBefore l a b) :
    listBefore (l ++ r) a b := by
  obtain ⟨l1, l2, l3, rfl⟩ := h
  exact ⟨l1, l2, l3 ++ r, by simp⟩

theorem listBefore_append_right (l r : List Nat) (a b : Nat) (h : listBefore l a b) :
    listBefore (r ++ l) a b := by
  obtain ⟨l1, l2, l3, rfl⟩ := h
  exact ⟨r ++ l1, l2, l3, by simp⟩

theorem listBefore_append_of_mem (l r : List Nat) (a b : Nat) (ha : a ∈ l) (hb : b ∈ r) :
    listBefore (l ++ r) a b := by
  obtain ⟨s, t, rfl⟩ := List.append_of_mem ha
  obtain ⟨u, v, rfl⟩ := List.append_of_mem hb
  exact ⟨s, t ++ u, v, by simp⟩

theorem listBefore_filter (p : Nat → Bool) (l : List Nat) (a b : Nat)
    (h : listBefore l a b) (ha : p a = true) (hb : p b = true) :
    listBefore (l.filter p) a b := by
  obtain ⟨l1, l2, l3, rfl⟩ := h
  exact ⟨l1.filter p, l2.filter p, l3.filter p, by simp [List.filter_append, List.filter_cons, ha, hb]⟩

theorem listBefore_flatMap (g : Nat → List Nat) (l : List Nat) (a b : Nat)
    (h : listBefore l a b) :
    listBefore (l.flatMap (fun i => i :: g i)) a b := by
  obtain ⟨l1, l2, l3, rfl⟩ := h
  refine ⟨l1.flatMap (fun i => i :: g i),
    g a ++ l2.flatMap (fun i => i :: g i), g b ++ l3.flatMap (fun i => i :: g i), ?_⟩
  simp [List.flatMap_append, List.flatMap_cons]

theorem listBefore_of_pairwise (edges : List (Nat × Nat)) (l : List Nat) (j k : Nat)
    (hp : l.Pairwise (fun a b => (b, a) ∉ edges)) (hjk : (j, k) ∈ edges)
    (hj : j ∈ l) (hk : k ∈ l) (hne : j ≠ k) : listBefore l j k := by
  obtain ⟨s, t, rfl⟩ := List.append_of_mem hk
  rcases List.mem_append.mp hj with hjs | hjt
  · obtain ⟨u, v, rfl⟩ := List.append_of_mem hjs
    exact ⟨u, v, t, by simp⟩
  · exfalso
    rcases List.mem_cons.mp hjt with e | hjt
    · exact hne e
    · have := (List.pairwise_append.mp hp).2.1
      exact (List.pairwise_cons.mp this).1 j hjt hjk

theorem rpmtsOrderEdges_mem {V : Type} (ts : rpmts_s V) :
    ∀ e ∈ rpmtsOrderEdges ts, e.1 ∈ ts.order ∧ e.2 ∈ ts.order := by
  intro e he
  unfold rpmtsOrderEdges at he
  rw [List.mem_flatMap] at he
  obtain ⟨p, hp, hep⟩ := he
  unfold rpmtsOrderEdgesOf at hep
  cases hte : rpmtsTe ts p with
  | none => simp [hte] at hep
  | some x =>
    simp only [hte, List.mem_map, List.mem_filter, decide_eq_true_eq] at hep
    obtain ⟨q, ⟨_, hq⟩, rfl⟩ := hep
    cases x.type <;> exact ⟨by first | exact hq | exact hp, by first | exact hp | exact hq⟩

theorem rpmtsOrderEdges_of_requires {V : Type} (ts : rpmts_s V) (a b : Nat) (ea : rpmte_s V)
    (ha : a ∈ ts.order) (hb : b ∈ ts.order) (hea : rpmtsTe ts a = some ea)
    (hreq : b ∈ ea.requires) :
    (ea.type = rpmElementType.TR_ADDED → (b, a) ∈ rpmtsOrderEdges ts) ∧
    (ea.type = rpmElementType.TR_REMOVED → (a, b) ∈ rpmtsOrderEdges ts) := by
  have key : ∀ e, e = (match ea.type with
        | rpmElementType.TR_ADDED => (b, a)
        | rpmElementType.TR_REMOVED => (a, b)) → e ∈ rpmtsOrderEdges ts := by
    intro e he
    unfold rpmtsOrderEdges
    rw [List.mem_flatMap]
    refine ⟨a, ha, ?_⟩
    unfold rpmtsOrderEdgesOf
    simp only [hea, List.mem_map, List.mem_filter, decide_eq_true_eq]
    exact ⟨b, ⟨hreq, hb⟩, he.symm⟩
  constructor
  · intro ht; exact key _ (by rw [ht])
  · intro ht; exact key _ (by rw [ht])

theorem rpmtsOrderLoop_nodup_sub (zap : List (Nat × Nat) → List Nat → Option (Nat × Nat))
    (nodes : List Nat) (hn : nodes.Nodup) :
    ∀ (fuel : Nat) (edges : List (Nat × Nat)),
      (∀ e ∈ edges, e.1 ∈ nodes ∧ e.2 ∈ nodes) →
      (rpmtsOrderLoop zap nodes fuel edges).Nodup ∧
      ∀ x ∈ rpmtsOrderLoop zap nodes fuel edges, x ∈ nodes := by
  intro fuel
  induction fuel with
  | zero =>
    intro edges hE
    have := tsort_spec nodes edges hn hE
    exact ⟨this.1, this.2.1⟩
  | succ fuel ih =>
    intro edges hE
    have hs := tsort_spec nodes edges hn hE
    unfold rpmtsOrderLoop
    split
    · exact ⟨hs.1, hs.2.1⟩
    · split
      · exact ⟨hs.1, hs.2.1⟩
      · split
        · apply ih
          intro e he
          exact hE e (List.mem_of_mem_erase he)
        · exact ⟨hs.1, hs.2.1⟩

theorem tsort_perm_of_acyclic (nodes : List Nat) (edges : List (Nat × Nat)) (hn : nodes.Nodup)
    (hE : ∀ e ∈ edges, e.1 ∈ nodes ∧ e.2 ∈ nodes) (hac : tsortAcyclic edges) :
    (tsort nodes edges).Perm nodes := by
  have hs := tsort_spec nodes edges hn hE
  rw [List.perm_ext_iff_of_nodup hs.1 hn]
  intro a
  exact ⟨hs.2.1 a, tsort_complete nodes edges hn hE hac a⟩

theorem rpmtsOrderLoop_of_acyclic (zap : List (Nat × Nat) → List Nat → Option (Nat × Nat))
    (nodes : List Nat) (edges : List (Nat × Nat)) (hn : nodes.Nodup)
    (hE : ∀ e ∈ edges, e.1 ∈ nodes ∧ e.2 ∈ nodes) (hac : tsortAcyclic edges) (fuel : Nat) :
    rpmtsOrderLoop zap nodes fuel edges = tsort nodes edges := by
  have hlen := (tsort_perm_of_acyclic nodes edges hn hE hac).length_eq
  cases fuel with
  | zero => rfl
  | succ fuel => unfold rpmtsOrderLoop; simp [hlen]

/-- The list that `rpmtsOrder` hands to the final placement: the sorted
elements followed by the unsorted ones. -/
theorem rpmtsOrder_sorted_perm {V : Type}
    (zap : List (Nat × Nat) → List Nat → Option (Nat × Nat)) (ts : rpmts_s V)
    (hnd : ts.order.Nodup) :
    (rpmtsOrderLoop zap ts.order (rpmtsOrderEdges ts).length (rpmtsOrderEdges ts)
      ++ ts.order.filter (fun p => decide (p ∉
          rpmtsOrderLoop zap ts.order (rpmtsOrderEdges ts).length (rpmtsOrderEdges ts)))).Nodup ∧
    (rpmtsOrderLoop zap ts.order (rpmtsOrderEdges ts).length (rpmtsOrderEdges ts)
      ++ ts.order.filter (fun p => decide (p ∉
          rpmtsOrderLoop zap ts.order (rpmtsOrderEdges ts).length (rpmtsOrderEdges ts)))).Perm
      ts.order := by
  obtain ⟨h1, h2⟩ := rpmtsOrderLoop_nodup_sub zap ts.order hnd (rpmtsOrderEdges ts).length
    (rpmtsOrderEdges ts) (rpmtsOrderEdges_mem ts)
  have hN : (rpmtsOrderLoop zap ts.order (rpmtsOrderEdges ts).length (rpmtsOrderEdges ts)
      ++ ts.order.filter (fun p => decide (p ∉
          rpmtsOrderLoop zap ts.order (rpmtsOrderEdges ts).length
            (rpmtsOrderEdges ts)))).Nodup := by
    refine List.Nodup.append h1 (hnd.filter _) ?_
    intro x hx1 hx2
    rw [List.mem_filter] at hx2
    simp only [decide_eq_true_eq] at hx2
    exact hx2.2 hx1
  refine ⟨hN, ?_⟩
  rw [List.perm_ext_iff_of_nodup hN hnd]
  intro a
  constructor
  · intro ha
    rcases List.mem_append.mp ha with ha | ha
    · exact h2 a ha
    · exact (List.mem_filter.mp ha).1
  · intro ha
    by_cases hs : a ∈ rpmtsOrderLoop zap ts.order (rpmtsOrderEdges ts).length (rpmtsOrderEdges ts)
    · exact List.mem_append_left _ hs
    · exact List.mem_append_right _ (List.mem_filter.mpr ⟨ha, by simpa using hs⟩)

theorem rpmtsTeIs_eq_true {V : Type} (ts : rpmts_s V) (t : rpmElementType) (p : Nat) :
    rpmtsTeIs ts t p = true ↔ ∃ e, rpmtsTe ts p = some e ∧ e.type = t := by
  unfold rpmtsTeIs
  cases rpmtsTe ts p <;> simp

theorem rpmtsPinnedTo_eq_true {V : Type} (ts : rpmts_s V) (i p : Nat) :
    rpmtsPinnedTo ts i p = true ↔
      ∃ e, rpmtsTe ts p = some e ∧ e.type = rpmElementType.TR_REMOVED ∧ e.dependsOn = some i := by
  unfold rpmtsPinnedTo
  cases rpmtsTe ts p <;> simp

theorem rpmtsPinnedTo_not_added {V : Type} (ts : rpmts_s V) (i p : Nat)
    (h : rpmtsPinnedTo ts i p = true) : rpmtsTeIs ts rpmElementType.TR_ADDED p = false := by
  obtain ⟨e, he, ht, _⟩ := (rpmtsPinnedTo_eq_true ts i p).mp h
  simp [rpmtsTeIs, he, ht]

theorem rpmtsPinnedTo_unique {V : Type} (ts : rpmts_s V) (i j p : Nat)
    (hi : rpmtsPinnedTo ts i p = true) (hj : rpmtsPinnedTo ts j p = true) : i = j := by
  obtain ⟨e, he, _, hd⟩ := (rpmtsPinnedTo_eq_true ts i p).mp hi
  obtain ⟨e', he', _, hd'⟩ := (rpmtsPinnedTo_eq_true ts j p).mp hj
  rw [he] at he'
  cases he'
  rw [hd] at hd'
  exact Option.some.inj hd'

theorem rpmtsUpgradeErase_eq_true {V : Type} (ts : rpmts_s V) (p : Nat) :
    rpmtsUpgradeErase ts p = true ↔
      ∃ i ∈ ts.order, rpmtsTeIs ts rpmElementType.TR_ADDED i = true ∧
        rpmtsPinnedTo ts i p = true := by
  simp [rpmtsUpgradeErase, List.any_eq_true]

theorem rpmtsPlacement_block {V : Type} (ts : rpmts_s V) (L : List Nat) (i : Nat)
    (hi : i ∈ L) (ha : rpmtsTeIs ts rpmElementType.TR_ADDED i = true) :
    ∃ pre post, rpmtsPlacement ts L = pre ++ i :: (L.filter (rpmtsPinnedTo ts i) ++ post) := by
  have hmem : i ∈ L.filter (rpmtsTeIs ts rpmElementType.TR_ADDED) :=
    List.mem_filter.mpr ⟨hi, ha⟩
  obtain ⟨s, t, hst⟩ := List.append_of_mem hmem
  refine ⟨s.flatMap (fun i => i :: L.filter (rpmtsPinnedTo ts i)),
    t.flatMap (fun i => i :: L.filter (rpmtsPinnedTo ts i))
      ++ L.filter (fun p => !rpmtsTeIs ts rpmElementType.TR_ADDED p && !rpmtsUpgradeErase ts p),
    ?_⟩
  unfold rpmtsPlacement
  rw [hst]
  simp [List.flatMap_append, List.flatMap_cons]

theorem rpmtsPlacement_added_before {V : Type} (ts : rpmts_s V) (L : List Nat) (b a : Nat)
    (h : listBefore L b a) (hb : rpmtsTeIs ts rpmElementType.TR_ADDED b = true)
    (ha : rpmtsTeIs ts rpmElementType.TR_ADDED a = true) :
    listBefore (rpmtsPlacement ts L) b a := by
  unfold rpmtsPlacement
  apply listBefore_append_left
  apply listBefore_flatMap
  exact listBefore_filter _ L b a h hb ha

theorem rpmtsPlacement_rest_before {V : Type} (ts : rpmts_s V) (L : List Nat) (a b : Nat)
    (h : listBefore L a b)
    (ha1 : rpmtsTeIs ts rpmElementType.TR_ADDED a = false) (ha2 : rpmtsUpgradeErase ts a = false)
    (hb1 : rpmtsTeIs ts rpmElementType.TR_ADDED b = false)
    (hb2 : rpmtsUpgradeErase ts b = false) :
    listBefore (rpmtsPlacement ts L) a b := by
  unfold rpmtsPlacement
  apply listBefore_append_right
  exact listBefore_filter _ L a b h (by simp [ha1, ha2]) (by simp [hb1, hb2])

theorem rpmtsPlacement_added_before_rest {V : Type} (ts : rpmts_s V) (L : List Nat) (i e : Nat)
    (hi : i ∈ L) (he : e ∈ L) (ha : rpmtsTeIs ts rpmElementType.TR_ADDED i = true)
    (he1 : rpmtsTeIs ts rpmElementType.TR_ADDED e = false)
    (he2 : rpmtsUpgradeErase ts e = false) :
    listBefore (rpmtsPlacement ts L) i e := by
  unfold rpmtsPlacement
  apply listBefore_append_of_mem
  · rw [List.mem_flatMap]
    exact ⟨i, List.mem_filter.mpr ⟨hi, ha⟩, List.mem_cons_self _ _⟩
  · exact List.mem_filter.mpr ⟨he, by simp [he1, he2]⟩

theorem rpmtsPlacement_mem {V : Type} (ts : rpmts_s V) (L : List Nat)
    (hsub : ∀ p ∈ ts.order, p ∈ L) (x : Nat) :
    x ∈ rpmtsPlacement ts L ↔ x ∈ L := by
  unfold rpmtsPlacement
  simp only [List.mem_append, List.mem_flatMap, List.mem_filter, List.mem_cons]
  constructor
  · rintro (⟨i, ⟨_, _⟩, rfl | ⟨hx, _⟩⟩ | ⟨hx, _⟩)
    · assumption
    · exact hx
    · exact hx
  · intro hx
    by_cases ha : rpmtsTeIs ts rpmElementType.TR_ADDED x = true
    · exact Or.inl ⟨x, ⟨hx, ha⟩, Or.inl rfl⟩
    · by_cases hu : rpmtsUpgradeErase ts x = true
      · obtain ⟨i, hi, hia, hip⟩ := (rpmtsUpgradeErase_eq_true ts x).mp hu
        exact Or.inl ⟨i, ⟨hsub i hi, hia⟩, Or.inr ⟨hx, hip⟩⟩
      · right
        refine ⟨hx, ?_⟩
        simp only [Bool.not_eq_true] at ha hu
        simp [ha, hu]

theorem rpmtsPlacement_nodup {V : Type} (ts : rpmts_s V) (L : List Nat) (hnd : L.Nodup)
    (hsub : ∀ p ∈ L, p ∈ ts.order) :
    (rpmtsPlacement ts L).Nodup := by
  unfold rpmtsPlacement
  refine List.Nodup.append ?_ (hnd.filter _) ?_
  · rw [List.nodup_flatMap]
    constructor
    · intro i hi
      refine List.nodup_cons.mpr ⟨?_, hnd.filter _⟩
      intro hmem
      have h1 := (List.mem_filter.mp hi).2
      have h2 := rpmtsPinnedTo_not_added ts i i (List.mem_filter.mp hmem).2
      rw [h1] at h2
      cases h2
    · have hnd' : (L.filter (rpmtsTeIs ts rpmElementType.TR_ADDED)).Nodup := hnd.filter _
      refine List.Pairwise.imp_of_mem ?_ hnd'
      intro i j hi hj hne
      simp only [Function.onFun]
      intro x hxi hxj
      have hia := (List.mem_filter.mp hi).2
      have hja := (List.mem_filter.mp hj).2
      rcases List.mem_cons.mp hxi with rfl | hxi
      · rcases List.mem_cons.mp hxj with e | hxj
        · exact hne e
        · have := rpmtsPinnedTo_not_added ts j x (List.mem_filter.mp hxj).2
          rw [hia] at this
          cases this
      · rcases List.mem_cons.mp hxj with rfl | hxj
        · have := rpmtsPinnedTo_not_added ts i x (List.mem_filter.mp hxi).2
          rw [hja] at this
          cases this
        · exact hne (rpmtsPinnedTo_unique ts i j x (List.mem_filter.mp hxi).2
            (List.mem_filter.mp hxj).2)
  · intro x hx1 hx2
    rw [List.mem_flatMap] at hx1
    obtain ⟨i, hi, hxi⟩ := hx1
    have hx2' := (List.mem_filter.mp hx2).2
    simp only [Bool.and_eq_true, Bool.not_eq_true'] at hx2'
    have hia := (List.mem_filter.mp hi).2
    rcases List.mem_cons.mp hxi with rfl | hxi
    · rw [hia] at hx2'
      cases hx2'.1
    · have hp := (List.mem_filter.mp hxi).2
      have : rpmtsUpgradeErase ts x = true :=
        (rpmtsUpgradeErase_eq_true ts x).mpr ⟨i, hsub i (List.mem_filter.mp hi).1, hia, hp⟩
      rw [this] at hx2'
      cases hx2'.2

/-- The final placement of a permutation of the elements is a permutation of
the elements. -/
theorem rpmtsPlacement_perm {V : Type} (ts : rpmts_s V) (L : List Nat) (hnd : L.Nodup)
    (hperm : L.Perm ts.order) : (rpmtsPlacement ts L).Perm ts.order := by
  have h1 := rpmtsPlacement_nodup ts L hnd (fun p hp => hperm.mem_iff.mp hp)
  refine List.Perm.trans ?_ hperm
  rw [List.perm_ext_iff_of_nodup h1 hnd]
  exact rpmtsPlacement_mem ts L (fun p hp => hperm.mem_iff.mpr hp)

/-- When `rpmtsOrder` returns 0 the stored order is the final placement of the
sorted elements followed by the unsorted ones. -/
theorem rpmtsOrder_of_zero {V : Type}
    (zap : List (Nat × Nat) → List Nat → Option (Nat × Nat)) (ts : rpmts_s V)
    (h0 : (rpmtsOrder zap ts).1 = 0) :
    (rpmtsOrder zap ts).2.order
      = rpmtsPlacement ts
          (rpmtsOrderLoop zap ts.order (rpmtsOrderEdges ts).length (rpmtsOrderEdges ts)
            ++ ts.order.filter (fun p => decide (p ∉
                rpmtsOrderLoop zap ts.order (rpmtsOrderEdges ts).length
                  (rpmtsOrderEdges ts)))) := by
  unfold rpmtsOrder at h0 ⊢
  simp only at h0 ⊢
  split
  · rfl
  · rename_i hne
    rw [if_neg hne] at h0
    simp only [Nat.cast_eq_zero] at h0
    exact absurd h0 hne

/-- On an ordering graph without cycle `rpmtsOrder` returns 0 and stores the
final placement of the topological sort, whatever the cycle-breaking rule. -/
theorem rpmtsOrder_acyclic_eq {V : Type}
    (zap : List (Nat × Nat) → List Nat → Option (Nat × Nat)) (ts : rpmts_s V)
    (hnd : ts.order.Nodup) (hac : tsortAcyclic (rpmtsOrderEdges ts)) :
    rpmtsOrder zap ts
      = (0, { ts with order := rpmtsPlacement ts (tsort ts.order (rpmtsOrderEdges ts)) }) := by
  have hloop := rpmtsOrderLoop_of_acyclic zap ts.order (rpmtsOrderEdges ts) hnd
    (rpmtsOrderEdges_mem ts) hac (rpmtsOrderEdges ts).length
  have hall := tsort_complete ts.order (rpmtsOrderEdges ts) hnd (rpmtsOrderEdges_mem ts) hac
  have hU : ts.order.filter (fun p => decide (p ∉ tsort ts.order (rpmtsOrderEdges ts))) = [] := by
    rw [List.filter_eq_nil_iff]
    intro p hp
    simp [hall p hp]
  unfold rpmtsOrder
  simp only [hloop, hU, List.filter_nil, List.length_nil, if_true, List.append_nil]

theorem placement_block_index (pre run post : List Nat) (i m : Nat) (hm : m < run.length) :
    (pre ++ i :: (run ++ post))[pre.length]? = some i ∧
    (pre ++ i :: (run ++ post))[pre.length + 1 + m]? = run[m]? := by
  constructor
  · rw [List.getElem?_append_right (le_refl _)]; simp
  · rw [List.getElem?_append_right (by omega)]
    have e : pre.length + 1 + m - pre.length = m + 1 := by omega
    rw [e, List.getElem?_cons_succ, List.getElem?_append_left hm]

theorem rpmtsOrderEdges_cases {V : Type} (ts : rpmts_s V) (j k : Nat)
    (h : (j, k) ∈ rpmtsOrderEdges ts) :
    (rpmtsTeIs ts rpmElementType.TR_ADDED k = true ∧ (k, j) ∈ rpmtsRequiresEdges ts) ∨
    (rpmtsTeIs ts rpmElementType.TR_ADDED j = false ∧ (j, k) ∈ rpmtsRequiresEdges ts) := by
  unfold rpmtsOrderEdges at h
  rw [List.mem_flatMap] at h
  obtain ⟨p, hp, hep⟩ := h
  unfold rpmtsOrderEdgesOf at hep
  cases hte : rpmtsTe ts p with
  | none => simp [hte] at hep
  | some x =>
    simp only [hte, List.mem_map, List.mem_filter, decide_eq_true_eq] at hep
    obtain ⟨q, ⟨hq1, hq2⟩, heq⟩ := hep
    have hraw : (p, q) ∈ rpmtsRequiresEdges ts := by
      unfold rpmtsRequiresEdges
      rw [List.mem_flatMap]
      refine ⟨p, hp, ?_⟩
      simp only [hte, List.mem_map, List.mem_filter, decide_eq_true_eq]
      exact ⟨q, ⟨hq1, hq2⟩, rfl⟩
    cases ht : x.type with
    | TR_ADDED =>
      rw [ht] at heq
      simp only [Prod.mk.injEq] at heq
      obtain ⟨rfl, rfl⟩ := heq
      exact Or.inl ⟨(rpmtsTeIs_eq_true ts _ _).mpr ⟨x, hte, ht⟩, hraw⟩
    | TR_REMOVED =>
      rw [ht] at heq
      simp only [Prod.mk.injEq] at heq
      obtain ⟨rfl, rfl⟩ := heq
      exact Or.inr ⟨by simp [rpmtsTeIs, hte, ht], hraw⟩

/-- A cycle of the ordering graph is a cycle of the dependency edges. -/
theorem rpmtsOrderEdges_acyclic {V : Type} (ts : rpmts_s V)
    (hac : tsortAcyclic (rpmtsRequiresEdges ts)) : tsortAcyclic (rpmtsOrderEdges ts) := by
  have fwd : ∀ a b, Relation.TransGen (fun a b => (a, b) ∈ rpmtsOrderEdges ts) a b →
      rpmtsTeIs ts rpmElementType.TR_ADDED a = true →
      rpmtsTeIs ts rpmElementType.TR_ADDED b = true ∧
        Relation.TransGen (fun a b => (a, b) ∈ rpmtsRequiresEdges ts) b a := by
    intro a b hab
    induction hab with
    | single h =>
      intro ha
      rcases rpmtsOrderEdges_cases ts _ _ h with ⟨h1, h2⟩ | ⟨h1, _⟩
      · exact ⟨h1, Relation.TransGen.single h2⟩
      · rw [ha] at h1; cases h1
    | tail _ hbc ih =>
      intro ha
      obtain ⟨hb, hba⟩ := ih ha
      rcases rpmtsOrderEdges_cases ts _ _ hbc with ⟨h1, h2⟩ | ⟨h1, _⟩
      · exact ⟨h1, Relation.TransGen.head h2 hba⟩
      · rw [hb] at h1; cases h1
  have bwd : ∀ a b, Relation.TransGen (fun a b => (a, b) ∈ rpmtsOrderEdges ts) a b →
      rpmtsTeIs ts rpmElementType.TR_ADDED b = false →
      rpmtsTeIs ts rpmElementType.TR_ADDED a = false ∧
        Relation.TransGen (fun a b => (a, b) ∈ rpmtsRequiresEdges ts) a b := by
    intro a b hab
    induction hab with
    | single h =>
      intro hb
      rcases rpmtsOrderEdges_cases ts _ _ h with ⟨h1, _⟩ | ⟨h1, h2⟩
      · rw [hb] at h1; cases h1
      · exact ⟨h1, Relation.TransGen.single h2⟩
    | tail _ hbc ih =>
      intro hc
      rcases rpmtsOrderEdges_cases ts _ _ hbc with ⟨h1, _⟩ | ⟨h1, h2⟩
      · rw [hc] at h1; cases h1
      · obtain ⟨ha, hab'⟩ := ih h1
        exact ⟨ha, Relation.TransGen.tail hab' h2⟩
  intro v hv
  cases hadd : rpmtsTeIs ts rpmElementType.TR_ADDED v with
  | true => exact hac v (fwd v v hv hadd).2
  | false => exact hac v (bwd v v hv hadd).2

/-- In the final placement the upgrade erases of an install fill the run that
starts right behind it. -/
theorem rpmtsPlacement_run {V : Type} (ts : rpmts_s V) (L : List Nat) (i e : Nat)
    (hi : i ∈ L) (he : e ∈ L) (hia : rpmtsTeIs ts rpmElementType.TR_ADDED i = true)
    (hpin : rpmtsPinnedTo ts i e = true) :
    ∃ x n : Nat, (rpmtsPlacement ts L)[x]? = some i ∧
      (rpmtsPlacement ts L)[x + 1 + n]? = some e ∧
      (∀ m, m ≤ n → ∃ q, (rpmtsPlacement ts L)[x + 1 + m]? = some q ∧
        rpmtsPinnedTo ts i q = true) ∧
      (L.filter (rpmtsPinnedTo ts i) = [e] → n = 0) := by
  obtain ⟨pre, post, hP⟩ := rpmtsPlacement_block ts L i hi hia
  rw [hP]
  have hmem : e ∈ L.filter (rpmtsPinnedTo ts i) := List.mem_filter.mpr ⟨he, hpin⟩
  obtain ⟨n, hn, hne⟩ := List.getElem_of_mem hmem
  refine ⟨pre.length, n, (placement_block_index pre _ post i n hn).1, ?_, ?_, ?_⟩
  · rw [(placement_block_index pre _ post i n hn).2, List.getElem?_eq_getElem hn, hne]
  · intro m hm
    have hm' : m < (L.filter (rpmtsPinnedTo ts i)).length := by omega
    refine ⟨(L.filter (rpmtsPinnedTo ts i))[m], ?_, ?_⟩
    · rw [(placement_block_index pre _ post i m hm').2, List.getElem?_eq_getElem hm']
    · exact (List.mem_filter.mp (List.getElem_mem hm')).2
  · intro hsole
    rw [hsole] at hn
    simpa using hn

/-! ## C5: the order of a transaction without dependency cycle -/

/-- C5, refuted as stated: `exampleUpgrades` has no dependency cycle and
`rpmtsOrder` returns 0, with final order 2, 3, 0, 1, 4, 5.  The plain erase 4
requires the plain erase 5, yet 5 is not placed before 4 (removals run in
reverse direction); and the erase 1 requires the erase 3, yet 1 is not placed
before 3 either (both are pinned behind their installs). -/
theorem rpmtsOrder_edge_not_dependency_first :
    exampleUpgrades.order.Nodup ∧
    tsortAcyclic (rpmtsRequiresEdges exampleUpgrades) ∧
    (rpmtsOrder zapFirst exampleUpgrades).1 = 0 ∧
    (rpmtsOrder zapFirst exampleUpgrades).2.order = [2, 3, 0, 1, 4, 5] ∧
    (∃ ea, rpmtsTe exampleUpgrades 4 = some ea ∧ 5 ∈ ea.requires) ∧
    ¬ (∃ i j : Nat, i < j ∧ rpmtsElement (rpmtsOrder zapFirst exampleUpgrades).2 i = some 5 ∧
        rpmtsElement (rpmtsOrder zapFirst exampleUpgrades).2 j = some 4) ∧
    (∃ ea, rpmtsTe exampleUpgrades 1 = some ea ∧ 3 ∈ ea.requires) ∧
    ¬ (∃ i j : Nat, i < j ∧ rpmtsElement (rpmtsOrder zapFirst exampleUpgrades).2 i = some 1 ∧
        rpmtsElement (rpmtsOrder zapFirst exampleUpgrades).2 j = some 3) := by
  have hord : (rpmtsOrder zapFirst exampleUpgrades).2.order = [2, 3, 0, 1, 4, 5] := by decide
  refine ⟨by decide, ?_, by decide, hord, ⟨_, rfl, by decide⟩, ?_, ⟨_, rfl, by decide⟩, ?_⟩
  · apply tsortAcyclic_of_rank _ (fun x => if x = 0 ∨ x = 1 ∨ x = 4 then 0 else 1)
    decide
  · rintro ⟨i, j, hij, hi, hj⟩
    simp only [rpmtsElement, hord] at hi hj
    rcases j with _ | _ | _ | _ | _ | _ | j <;> simp at hj
    rcases i with _ | _ | _ | _ | _ | _ | i <;> simp at hi
    omega
  · rintro ⟨i, j, hij, hi, hj⟩
    simp only [rpmtsElement, hord] at hi hj
    rcases j with _ | _ | _ | _ | _ | _ | j <;> simp at hj
    rcases i with _ | _ | _ | _ | _ | _ | i <;> simp at hi
    omega

/-- C5, amended: for a transaction whose dependency edges have no cycle `rpmtsOrder`
returns 0 and stores a permutation of the elements in which, for every
dependency edge "`a` requires `b`": if both are installs, `b` is placed before
`a`; if both are erases that accompany no upgrade, `a` is placed before `b`
(removals run in reverse direction); if `a` is such an erase and `b` an
install, `b` is placed before `a`. -/
theorem rpmtsOrder_of_acyclic {V : Type}
    (zap : List (Nat × Nat) → List Nat → Option (Nat × Nat)) (ts : rpmts_s V)
    (hnd : ts.order.Nodup) (hcyc : tsortAcyclic (rpmtsRequiresEdges ts)) :
    (rpmtsOrder zap ts).1 = 0 ∧
    (rpmtsOrder zap ts).2.order.Perm ts.order ∧
    ∀ (a b : Nat) (ea eb : rpmte_s V), a ∈ ts.order → b ∈ ts.order →
      rpmtsTe ts a = some ea → rpmtsTe ts b = some eb → b ∈ ea.requires →
      ((ea.type = rpmElementType.TR_ADDED ∧ eb.type = rpmElementType.TR_ADDED →
        ∃ i j : Nat, i < j ∧ rpmtsElement (rpmtsOrder zap ts).2 i = some b ∧
          rpmtsElement (rpmtsOrder zap ts).2 j = some a) ∧
       (ea.type = rpmElementType.TR_REMOVED ∧ eb.type = rpmElementType.TR_REMOVED ∧
          rpmtsUpgradeErase ts a = false ∧ rpmtsUpgradeErase ts b = false →
        ∃ i j : Nat, i < j ∧ rpmtsElement (rpmtsOrder zap ts).2 i = some a ∧
          rpmtsElement (rpmtsOrder zap ts).2 j = some b) ∧
       (ea.type = rpmElementType.TR_REMOVED ∧ rpmtsUpgradeErase ts a = false ∧
          eb.type = rpmElementType.TR_ADDED →
        ∃ i j : Nat, i < j ∧ rpmtsElement (rpmtsOrder zap ts).2 i = some b ∧
          rpmtsElement (rpmtsOrder zap ts).2 j = some a)) := by
  have hac := rpmtsOrderEdges_acyclic ts hcyc
  have heq := rpmtsOrder_acyclic_eq zap ts hnd hac
  have hE := rpmtsOrderEdges_mem ts
  have hs := tsort_spec ts.order (rpmtsOrderEdges ts) hnd hE
  have hperm := tsort_perm_of_acyclic ts.order (rpmtsOrderEdges ts) hnd hE hac
  rw [heq]
  refine ⟨rfl, rpmtsPlacement_perm ts _ hs.1 hperm, ?_⟩
  intro a b ea eb ha hb hea heb hreq
  have hedge := rpmtsOrderEdges_of_requires ts a b ea ha hb hea hreq
  have haS := hperm.mem_iff.mpr ha
  have hbS := hperm.mem_iff.mpr hb
  have hadd : ∀ (p : Nat) (e : rpmte_s V), rpmtsTe ts p = some e →
      e.type = rpmElementType.TR_ADDED → rpmtsTeIs ts rpmElementType.TR_ADDED p = true :=
    fun p e hp ht => (rpmtsTeIs_eq_true ts _ p).mpr ⟨e, hp, ht⟩
  have hrem : ∀ (p : Nat) (e : rpmte_s V), rpmtsTe ts p = some e →
      e.type = rpmElementType.TR_REMOVED → rpmtsTeIs ts rpmElementType.TR_ADDED p = false := by
    intro p e hp ht
    simp [rpmtsTeIs, hp, ht]
  refine ⟨?_, ?_, ?_⟩
  · rintro ⟨hta, htb⟩
    have he := hedge.1 hta
    have hne := (hs.2.2.2.1 b a he haS).2
    have hbef := listBefore_of_pairwise _ _ b a hs.2.2.1 he hbS haS hne
    exact listBefore_index _ b a
      (rpmtsPlacement_added_before ts _ b a hbef (hadd b eb heb htb) (hadd a ea hea hta))
  · rintro ⟨hta, htb, hua, hub⟩
    have he := hedge.2 hta
    have hne := (hs.2.2.2.1 a b he hbS).2
    have hbef := listBefore_of_pairwise _ _ a b hs.2.2.1 he haS hbS hne
    exact listBefore_index _ a b
      (rpmtsPlacement_rest_before ts _ a b hbef (hrem a ea hea hta) hua (hrem b eb heb htb) hub)
  · rintro ⟨hta, hua, htb⟩
    exact listBefore_index _ b a
      (rpmtsPlacement_added_before_rest ts _ b a hbS haS (hadd b eb heb htb)
        (hrem a ea hea hta) hua)

/-- C5 amended, at a concrete input: `exampleUpgrades` is ordered with result
0, as a permutation, install 2 before install 0 which requires it, and the
plain erase 4 before the plain erase 5 which it requires. -/
theorem rpmtsOrder_of_acyclic_witness :
    (rpmtsOrder zapFirst exampleUpgrades).1 = 0 ∧
    (rpmtsOrder zapFirst exampleUpgrades).2.order.Perm exampleUpgrades.order ∧
    (∃ i j : Nat, i < j ∧ rpmtsElement (rpmtsOrder zapFirst exampleUpgrades).2 i = some 2 ∧
      rpmtsElement (rpmtsOrder zapFirst exampleUpgrades).2 j = some 0) ∧
    (∃ i j : Nat, i < j ∧ rpmtsElement (rpmtsOrder zapFirst exampleUpgrades).2 i = some 4 ∧
      rpmtsElement (rpmtsOrder zapFirst exampleUpgrades).2 j = some 5) :=
  have hac : tsortAcyclic (rpmtsRequiresEdges exampleUpgrades) :=
    tsortAcyclic_of_rank _ (fun x => if x = 0 ∨ x = 1 ∨ x = 4 then 0 else 1) (by decide)
  have h := rpmtsOrder_of_acyclic zapFirst exampleUpgrades (by decide) hac
  ⟨h.1, h.2.1,
   (h.2.2 0 2 _ _ (by decide) (by decide) rfl rfl (by decide)).1 ⟨rfl, rfl⟩,
   (h.2.2 4 5 _ _ (by decide) (by decide) rfl rfl (by decide)).2.1
     ⟨rfl, rfl, by decide, by decide⟩⟩

/-! ## C6: the final placement -/

/-- C6, refuted as stated: in `exampleDoubleErase` the erases 1 and 2 both
accompany the upgrade install 0, and install 3 is a further install.
`rpmtsOrder` returns 0 with final order 0, 1, 2, 3: the erase 2 does not sit at
the index immediately after install 0, and install 3 does not come before the
erase 1. -/
theorem rpmtsOrder_erase_not_always_adjacent :
    exampleDoubleErase.order.Nodup ∧
    (rpmtsOrder zapFirst exampleDoubleErase).1 = 0 ∧
    (rpmtsOrder zapFirst exampleDoubleErase).2.order = [0, 1, 2, 3] ∧
    rpmtsTeIs exampleDoubleErase rpmElementType.TR_ADDED 0 = true ∧
    rpmtsPinnedTo exampleDoubleErase 0 2 = true ∧
    ¬ (∃ x : Nat, rpmtsElement (rpmtsOrder zapFirst exampleDoubleErase).2 x = some 0 ∧
        rpmtsElement (rpmtsOrder zapFirst exampleDoubleErase).2 (x + 1) = some 2) ∧
    rpmtsTeIs exampleDoubleErase rpmElementType.TR_ADDED 3 = true ∧
    rpmtsTeIs exampleDoubleErase rpmElementType.TR_REMOVED 1 = true ∧
    ¬ (∃ x y : Nat, x < y ∧ rpmtsElement (rpmtsOrder zapFirst exampleDoubleErase).2 x = some 3 ∧
        rpmtsElement (rpmtsOrder zapFirst exampleDoubleErase).2 y = some 1) := by
  have hord : (rpmtsOrder zapFirst exampleDoubleErase).2.order = [0, 1, 2, 3] := by decide
  refine ⟨by decide, by decide, hord, by decide, by decide, ?_, by decide, by decide, ?_⟩
  · rintro ⟨x, h1, h2⟩
    simp only [rpmtsElement, hord] at h1 h2
    rcases x with _ | _ | _ | _ | x <;> simp at h1 h2
  · rintro ⟨x, y, hxy, h1, h2⟩
    simp only [rpmtsElement, hord] at h1 h2
    rcases y with _ | _ | _ | _ | y <;> simp at h2
    rcases x with _ | _ | _ | _ | x <;> simp at h1
    omega

/-- C6, amended: whenever `rpmtsOrder` returns 0, whatever the dependency
edges, the stored order is a permutation of the elements in which every
install comes before every erase that accompanies no upgrade, and every erase
`e` that accompanies the upgrade install `i` sits in the unbroken run of such
erases that starts at the index immediately after `i`; it sits at that index
itself when it is the only erase of that install. -/
theorem rpmtsOrder_final_placement {V : Type}
    (zap : List (Nat × Nat) → List Nat → Option (Nat × Nat)) (ts : rpmts_s V)
    (hnd : ts.order.Nodup) (h0 : (rpmtsOrder zap ts).1 = 0) :
    (rpmtsOrder zap ts).2.order.Perm ts.order ∧
    (∀ i e : Nat, i ∈ ts.order → e ∈ ts.order →
      rpmtsTeIs ts rpmElementType.TR_ADDED i = true →
      rpmtsTeIs ts rpmElementType.TR_REMOVED e = true → rpmtsUpgradeErase ts e = false →
      ∃ x y : Nat, x < y ∧ rpmtsElement (rpmtsOrder zap ts).2 x = some i ∧
        rpmtsElement (rpmtsOrder zap ts).2 y = some e) ∧
    (∀ i e : Nat, i ∈ ts.order → e ∈ ts.order →
      rpmtsTeIs ts rpmElementType.TR_ADDED i = true → rpmtsPinnedTo ts i e = true →
      ∃ x n : Nat, rpmtsElement (rpmtsOrder zap ts).2 x = some i ∧
        rpmtsElement (rpmtsOrder zap ts).2 (x + 1 + n) = some e ∧
        (∀ m, m ≤ n → ∃ q, rpmtsElement (rpmtsOrder zap ts).2 (x + 1 + m) = some q ∧
          rpmtsPinnedTo ts i q = true) ∧
        (ts.order.filter (rpmtsPinnedTo ts i) = [e] → n = 0)) := by
  obtain ⟨hLnd, hLperm⟩ := rpmtsOrder_sorted_perm zap ts hnd
  have hord := rpmtsOrder_of_zero zap ts h0
  simp only [rpmtsElement, hord]
  refine ⟨rpmtsPlacement_perm ts _ hLnd hLperm, ?_, ?_⟩
  · intro i e hi he hia her hup
    have hea : rpmtsTeIs ts rpmElementType.TR_ADDED e = false := by
      obtain ⟨x, hx, ht⟩ := (rpmtsTeIs_eq_true ts _ e).mp her
      simp [rpmtsTeIs, hx, ht]
    exact listBefore_index _ i e
      (rpmtsPlacement_added_before_rest ts _ i e (hLperm.mem_iff.mpr hi)
        (hLperm.mem_iff.mpr he) hia hea hup)
  · intro i e hi he hia hpin
    obtain ⟨x, n, h1, h2, h3, h4⟩ := rpmtsPlacement_run ts _ i e (hLperm.mem_iff.mpr hi)
      (hLperm.mem_iff.mpr he) hia hpin
    refine ⟨x, n, h1, h2, h3, ?_⟩
    intro hsole
    apply h4
    have hp := List.Perm.filter (rpmtsPinnedTo ts i) hLperm
    rw [hsole] at hp
    exact List.perm_singleton.mp hp

/-- C6 amended, at a concrete input: in the final order of `exampleUpgrades`
the erase 1 sits at the index immediately after its install 0, and install 0
comes before the plain erase 4. -/
theorem rpmtsOrder_final_placement_witness :
    (rpmtsOrder zapFirst exampleUpgrades).2.order.Perm exampleUpgrades.order ∧
    (∃ x y : Nat, x < y ∧ rpmtsElement (rpmtsOrder zapFirst exampleUpgrades).2 x = some 0 ∧
      rpmtsElement (rpmtsOrder zapFirst exampleUpgrades).2 y = some 4) ∧
    (∃ x n : Nat, rpmtsElement (rpmtsOrder zapFirst exampleUpgrades).2 x = some 0 ∧
      rpmtsElement (rpmtsOrder zapFirst exampleUpgrades).2 (x + 1 + n) = some 1 ∧
      (∀ m, m ≤ n → ∃ q, rpmtsElement (rpmtsOrder zapFirst exampleUpgrades).2 (x + 1 + m)
          = some q ∧ rpmtsPinnedTo exampleUpgrades 0 q = true) ∧
      (exampleUpgrades.order.filter (rpmtsPinnedTo exampleUpgrades 0) = [1] → n = 0)) ∧
    exampleUpgrades.order.filter (rpmtsPinnedTo exampleUpgrades 0) = [1] :=
  have h := rpmtsOrder_final_placement zapFirst exampleUpgrades (by decide) (by decide)
  ⟨h.1, h.2.1 0 4 (by decide) (by decide) (by decide) (by decide) (by decide),
   h.2.2 0 1 (by decide) (by decide) (by decide) (by decide), by decide⟩

/-! ## Helper lemmas: element admission -/

theorem rpmtsAddedNamed_appended_old {V : Type} (ts : rpmts_s V) (x : rpmte_s V) (m : String)
    (p : Nat) (hp : p < ts.te.length) :
    rpmtsAddedNamed (rpmtsAppended ts x) m p = rpmtsAddedNamed ts m p := by
  simp [rpmtsAddedNamed, rpmtsTe, rpmtsAppended, List.getElem?_append_left hp]

theorem rpmtsTe_appended_old {V : Type} (ts : rpmts_s V) (x : rpmte_s V)
    (p : Nat) (hp : p < ts.te.length) :
    rpmtsTe (rpmtsAppended ts x) p = rpmtsTe ts p := by
  simp [rpmtsTe, rpmtsAppended, List.getElem?_append_left hp]

theorem rpmtsTe_appended_new {V : Type} (ts : rpmts_s V) (x : rpmte_s V) :
    rpmtsTe (rpmtsAppended ts x) ts.te.length = some x := by
  simp [rpmtsTe, rpmtsAppended]

theorem rpmtsAddedNamed_appended_new {V : Type} (ts : rpmts_s V) (x : rpmte_s V) (m : String) :
    rpmtsAddedNamed (rpmtsAppended ts x) m ts.te.length
      = (decide (x.type = rpmElementType.TR_ADDED) && decide (x.N = m)) := by
  simp [rpmtsAddedNamed, rpmtsTe_appended_new]

theorem filter_appended {V : Type} (ts : rpmts_s V) (x : rpmte_s V) (m : String)
    (hwf : ∀ p ∈ ts.order, p < ts.te.length) :
    (rpmtsAppended ts x).order.filter (rpmtsAddedNamed (rpmtsAppended ts x) m)
      = ts.order.filter (rpmtsAddedNamed ts m)
        ++ (if (decide (x.type = rpmElementType.TR_ADDED) && decide (x.N = m)) = true
            then [ts.te.length] else []) := by
  have h1 : (rpmtsAppended ts x).order = ts.order ++ [ts.te.length] := rfl
  rw [h1, List.filter_append]
  congr 1
  · apply List.filter_congr
    intro p hp
    exact rpmtsAddedNamed_appended_old ts x m p (hwf p hp)
  · simp [List.filter_cons, rpmtsAddedNamed_appended_new]


theorem rpmtsAddedElements_appended {V : Type} (ts : rpmts_s V) (x : rpmte_s V) (m : String)
    (hwf : ∀ p ∈ ts.order, p < ts.te.length) :
    rpmtsAddedElements (rpmtsAppended ts x) m
      = rpmtsAddedElements ts m
        ++ (if (decide (x.type = rpmElementType.TR_ADDED) && decide (x.N = m)) = true
            then [x] else []) := by
  unfold rpmtsAddedElements
  rw [filter_appended ts x m hwf, List.filterMap_append]
  congr 1
  · apply List.filterMap_congr
    intro p hp
    exact rpmtsTe_appended_old ts x p (hwf p (List.mem_of_mem_filter hp))
  · split
    · simp [rpmtsTe_appended_new]
    · simp

theorem rpmtsAddedElements_of_absent {V : Type} (ts : rpmts_s V) (n : String)
    (hnew : ∀ p ∈ ts.order, rpmtsAddedNamed ts n p = false) :
    rpmtsAddedElements ts n = [] := by
  unfold rpmtsAddedElements
  have : ts.order.filter (rpmtsAddedNamed ts n) = [] := by
    rw [List.filter_eq_nil_iff]
    intro p hp
    simp [hnew p hp]
  rw [this]; rfl

theorem rpmtsAddInstallElement_fresh {V : Type} [LinearOrder V] (ts : rpmts_s V) (h : Header V)
    (hnew : ∀ p ∈ ts.order, rpmtsAddedNamed ts h.N p = false) :
    rpmtsAddInstallElement ts h 0 = (0, rpmtsAppended ts (hdrTe h)) := by
  have hf : ts.order.find? (rpmtsAddedNamed ts h.N) = none := by
    rw [List.find?_eq_none]
    intro p hp
    simp [hnew p hp]
  simp [rpmtsAddInstallElement, hf, rpmtsAppended, hdrTe]

theorem set_appended {V : Type} (ts : rpmts_s V) (x y : rpmte_s V) :
    ({ rpmtsAppended ts x with te := (rpmtsAppended ts x).te.set ts.te.length y } : rpmts_s V)
      = rpmtsAppended ts y := by
  simp [rpmtsAppended]

theorem rpmtsAddInstallElement_dup {V : Type} [LinearOrder V] (ts : rpmts_s V)
    (x : rpmte_s V) (h : Header V)
    (hwf : ∀ p ∈ ts.order, p < ts.te.length)
    (hnew : ∀ p ∈ ts.order, rpmtsAddedNamed ts h.N p = false)
    (hx : x.type = rpmElementType.TR_ADDED) (hxn : x.N = h.N) :
    rpmtsAddInstallElement (rpmtsAppended ts x) h 0
      = (0, if h.EVR < x.EVR then rpmtsAppended ts x else rpmtsAppended ts (hdrTe h)) := by
  have hf : (rpmtsAppended ts x).order.find? (rpmtsAddedNamed (rpmtsAppended ts x) h.N)
      = some ts.te.length := by
    have h1 : (rpmtsAppended ts x).order = ts.order ++ [ts.te.length] := rfl
    rw [h1, List.find?_append]
    have hnone : ts.order.find? (rpmtsAddedNamed (rpmtsAppended ts x) h.N) = none := by
      rw [List.find?_eq_none]
      intro p hp
      rw [rpmtsAddedNamed_appended_old ts x h.N p (hwf p hp)]
      simp [hnew p hp]
    rw [hnone]
    simp [rpmtsAddedNamed_appended_new, hx, hxn]
  unfold rpmtsAddInstallElement
  simp only [ne_eq, not_true_eq_false, if_false, hf, rpmtsTe_appended_new]
  by_cases hlt : h.EVR < x.EVR
  · simp [hlt]
  · simp only [hlt, if_false]
    have := set_appended ts x (hdrTe h)
    simp only [hdrTe] at this ⊢
    rw [← this]


/-! ## C7: admitting the same name twice keeps the newest EVR -/

/-- C7: in a transaction that holds no install element named `n`, admitting
two headers of name `n` with EVRs `E1 < E2`, in either call order, succeeds
both times and leaves exactly one install element named `n`, whose EVR is
`max E1 E2`; `numAddedPackages` has grown by one. -/
theorem rpmtsAddInstallElement_keeps_newest {V : Type} [LinearOrder V] (ts : rpmts_s V)
    (n : String) (E1 E2 : V) (r1 r2 : List Nat)
    (hwf : ∀ p ∈ ts.order, p < ts.te.length)
    (hnew : ∀ p ∈ ts.order, rpmtsAddedNamed ts n p = false)
    (hlt : E1 < E2) :
    (rpmtsAddInstallElement ts ⟨n, E1, r1⟩ 0).1 = 0 ∧
    (rpmtsAddInstallElement ts ⟨n, E2, r2⟩ 0).1 = 0 ∧
    (rpmtsAddInstallElement (rpmtsAddInstallElement ts ⟨n, E1, r1⟩ 0).2 ⟨n, E2, r2⟩ 0).1 = 0 ∧
    (rpmtsAddInstallElement (rpmtsAddInstallElement ts ⟨n, E2, r2⟩ 0).2 ⟨n, E1, r1⟩ 0).1 = 0 ∧
    (rpmtsAddedElements
        (rpmtsAddInstallElement (rpmtsAddInstallElement ts ⟨n, E1, r1⟩ 0).2 ⟨n, E2, r2⟩ 0).2
        n).map (fun e => e.EVR) = [max E1 E2] ∧
    (rpmtsAddedElements
        (rpmtsAddInstallElement (rpmtsAddInstallElement ts ⟨n, E2, r2⟩ 0).2 ⟨n, E1, r1⟩ 0).2
        n).map (fun e => e.EVR) = [max E1 E2] ∧
    (rpmtsAddInstallElement (rpmtsAddInstallElement ts ⟨n, E1, r1⟩ 0).2
        ⟨n, E2, r2⟩ 0).2.numAddedPackages = ts.numAddedPackages + 1 ∧
    (rpmtsAddInstallElement (rpmtsAddInstallElement ts ⟨n, E2, r2⟩ 0).2
        ⟨n, E1, r1⟩ 0).2.numAddedPackages = ts.numAddedPackages + 1 := by
  have hmax : max E1 E2 = E2 := max_eq_right (le_of_lt hlt)
  have hA := rpmtsAddInstallElement_fresh ts ⟨n, E1, r1⟩ hnew
  have hB := rpmtsAddInstallElement_fresh ts ⟨n, E2, r2⟩ hnew
  have hAB := rpmtsAddInstallElement_dup ts (hdrTe ⟨n, E1, r1⟩) ⟨n, E2, r2⟩ hwf hnew rfl rfl
  have hBA := rpmtsAddInstallElement_dup ts (hdrTe ⟨n, E2, r2⟩) ⟨n, E1, r1⟩ hwf hnew rfl rfl
  have h12 : ¬ (E2 < E1) := not_lt_of_gt hlt
  simp only [hdrTe, h12, hlt, if_true, if_false] at hAB hBA
  have hel : ∀ E r, rpmtsAddedElements (rpmtsAppended ts (hdrTe ⟨n, E, r⟩)) n
      = [hdrTe ⟨n, E, r⟩] := by
    intro E r
    rw [rpmtsAddedElements_appended ts _ n hwf, rpmtsAddedElements_of_absent ts n hnew]
    simp [hdrTe]
  have hel2 := hel E2 r2
  simp only [hdrTe] at hel2 hA hB
  rw [hA, hB]
  simp only [hAB, hBA, hel2, hmax]
  simp [rpmtsAppended]

/-- C7 at a concrete input: `pkgA` at EVR 1 and at EVR 2, admitted in either
order into a transaction that holds `pkgB`, leaves one `pkgA` at EVR 2 and two
added packages. -/
theorem rpmtsAddInstallElement_keeps_newest_witness :
    (rpmtsAddedElements
        (rpmtsAddInstallElement (rpmtsAddInstallElement exampleTs ⟨"pkgA", 1, []⟩ 0).2
          ⟨"pkgA", 2, []⟩ 0).2 "pkgA").map (fun e => e.EVR) = [2] ∧
    (rpmtsAddedElements
        (rpmtsAddInstallElement (rpmtsAddInstallElement exampleTs ⟨"pkgA", 2, []⟩ 0).2
          ⟨"pkgA", 1, []⟩ 0).2 "pkgA").map (fun e => e.EVR) = [2] ∧
    (rpmtsAddInstallElement (rpmtsAddInstallElement exampleTs ⟨"pkgA", 1, []⟩ 0).2
        ⟨"pkgA", 2, []⟩ 0).2.numAddedPackages = 2 ∧
    (rpmtsAddInstallElement (rpmtsAddInstallElement exampleTs ⟨"pkgA", 2, []⟩ 0).2
        ⟨"pkgA", 1, []⟩ 0).2.numAddedPackages = 2 :=
  (rpmtsAddInstallElement_keeps_newest exampleTs "pkgA" 1 2 [] []
    (by decide) (by decide) (by decide)).2.2.2.2

/-! ## C8: scores change only in a normal transaction with autorollback -/

theorem rpmtsType_ne_normal_of_bit (t : Nat)
    (h : t &&& RPMTRANS_TYPE_ROLLBACK ≠ 0 ∨ t &&& RPMTRANS_TYPE_AUTOROLLBACK ≠ 0) :
    t ≠ RPMTRANS_TYPE_NORMAL := by
  intro h0
  rw [h0] at h
  simp [RPMTRANS_TYPE_NORMAL] at h

/-- C8: if the executing transaction's type has the ROLLBACK or AUTOROLLBACK
bit set, or autorollback is disabled, or the transaction has no tracker, an
executed install or erase step leaves the score store, and so every entry's
`te_types`, `installed` and `erased`, unchanged. -/
theorem rpmtsScoreUpdate_only_normal_autorollback {V : Type} (autorollback : Bool)
    (store : rpmtsScoreStore) (ts : rpmts_s V) (e : rpmte_s V)
    (h : ts.type &&& RPMTRANS_TYPE_ROLLBACK ≠ 0 ∨ ts.type &&& RPMTRANS_TYPE_AUTOROLLBACK ≠ 0 ∨
      autorollback = false ∨ rpmtsGetScore ts = none) :
    rpmtsScoreUpdate autorollback store ts e = store ∧
    ∀ (score : Option Nat) (N : String),
      (rpmtsScoreGetEntry (rpmtsScoreUpdate autorollback store ts e) score N).map
          (fun se => (se.te_types, se.installed, se.erased))
        = (rpmtsScoreGetEntry store score N).map
          (fun se => (se.te_types, se.installed, se.erased)) := by
  have hs : rpmtsScoreUpdate autorollback store ts e = store := by
    unfold rpmtsScoreUpdate
    rcases h with h | h | h | h
    · have := rpmtsType_ne_normal_of_bit ts.type (Or.inl h)
      simp [this]
    · have := rpmtsType_ne_normal_of_bit ts.type (Or.inr h)
      simp [this]
    · simp [h]
    · simp [h]
  refine ⟨hs, ?_⟩
  intro score N
  rw [hs]

/-- A step that changes the score store runs with autorollback enabled, in a
normal transaction, with a tracker attached. -/
theorem rpmtsScoreUpdate_changed_imp {V : Type} (autorollback : Bool)
    (store : rpmtsScoreStore) (ts : rpmts_s V) (e : rpmte_s V)
    (h : rpmtsScoreUpdate autorollback store ts e ≠ store) :
    autorollback = true ∧ ts.type = RPMTRANS_TYPE_NORMAL ∧ rpmtsGetScore ts ≠ none := by
  unfold rpmtsScoreUpdate at h
  by_cases hg : autorollback = true ∧ ts.type = RPMTRANS_TYPE_NORMAL
  · refine ⟨hg.1, hg.2, ?_⟩
    intro hn
    simp [hg, hn] at h
  · simp [hg] at h

/-- C8 at a concrete input: with the tracker of `exampleStore` attached, a
finished install of `pkgB` changes nothing in a rollback transaction, while in
a normal transaction with autorollback it sets the entry's `installed`. -/
theorem rpmtsScoreUpdate_only_normal_autorollback_witness :
    rpmtsScoreUpdate true exampleStore
        { exampleTs with type := RPMTRANS_TYPE_ROLLBACK, score := some 0 }
        { N := "pkgB", EVR := 1, type := rpmElementType.TR_ADDED,
          requires := [], dependsOn := none } = exampleStore ∧
    (rpmtsScoreGetEntry
        (rpmtsScoreUpdate true exampleStore { exampleTs with score := some 0 }
          { N := "pkgB", EVR := 1, type := rpmElementType.TR_ADDED,
            requires := [], dependsOn := none })
        (some 0) "pkgB").map (fun se => se.installed) = some 1 :=
  ⟨(rpmtsScoreUpdate_only_normal_autorollback true exampleStore
      { exampleTs with type := RPMTRANS_TYPE_ROLLBACK, score := some 0 }
      { N := "pkgB", EVR := 1, type := rpmElementType.TR_ADDED,
        requires := [], dependsOn := none } (Or.inl (by decide))).1,
   by decide⟩

/-! ## Helper lemmas: score trackers -/

theorem rpmtsScoreDeref_set_same (store : rpmtsScoreStore) (p : Nat) (v : Option rpmtsScore_s)
    (hp : p < store.length) :
    rpmtsScoreDeref (store.set p v) (some p) = v := by
  simp [rpmtsScoreDeref, List.getElem?_set, hp]

theorem rpmtsScoreDeref_some_lt (store : rpmtsScoreStore) (p : Nat) (sc : rpmtsScore_s)
    (h : rpmtsScoreDeref store (some p) = some sc) : p < store.length := by
  by_contra hlt
  have : store[p]? = none := List.getElem?_eq_none (by omega)
  simp [rpmtsScoreDeref, this] at h

theorem rpmtsScoreFree_live (store : rpmtsScoreStore) (p : Nat) (sc : rpmtsScore_s)
    (h : rpmtsScoreDeref store (some p) = some sc) (hn : 1 < sc.nrefs) :
    rpmtsScoreFree store (some p) = (store.set p (some { sc with nrefs := sc.nrefs - 1 }), none) := by
  have : sc.nrefs - 1 > 0 := by omega
  simp [rpmtsScoreFree, h, this]

theorem rpmtsScoreFree_last (store : rpmtsScoreStore) (p : Nat) (sc : rpmtsScore_s)
    (h : rpmtsScoreDeref store (some p) = some sc) (hn : sc.nrefs ≤ 1) :
    rpmtsScoreFree store (some p) = (store.set p none, none) := by
  have : ¬ (sc.nrefs - 1 > 0) := by omega
  simp [rpmtsScoreFree, h, this]

theorem rpmtsScoreFree_twice (store : rpmtsScoreStore) (p : Nat) (sc : rpmtsScore_s)
    (h : rpmtsScoreDeref store (some p) = some sc) (hn : sc.nrefs = 2) :
    (rpmtsScoreFree store (some p)).2 = none ∧
    rpmtsScoreDeref (rpmtsScoreFree store (some p)).1 (some p) = some { sc with nrefs := 1 } ∧
    (∀ N : String, rpmtsScoreGetEntry (rpmtsScoreFree store (some p)).1 (some p) N
        = rpmtsScoreGetEntry store (some p) N) ∧
    (rpmtsScoreFree (rpmtsScoreFree store (some p)).1 (some p)).2 = none ∧
    rpmtsScoreDeref (rpmtsScoreFree (rpmtsScoreFree store (some p)).1 (some p)).1 (some p)
      = none ∧
    (∀ N : String,
      rpmtsScoreGetEntry (rpmtsScoreFree (rpmtsScoreFree store (some p)).1 (some p)).1
        (some p) N = none) := by
  have hlt := rpmtsScoreDeref_some_lt _ _ _ h
  have h1 := rpmtsScoreFree_live _ _ _ h (by omega)
  have e1 : ({ sc with nrefs := sc.nrefs - 1 } : rpmtsScore_s) = { sc with nrefs := 1 } := by
    rw [hn]; rfl
  rw [e1] at h1
  have hd1 := rpmtsScoreDeref_set_same store p (some { sc with nrefs := 1 }) hlt
  have h2 := rpmtsScoreFree_last _ _ _ hd1 (by simp)
  have hlt2 : p < (store.set p (some { sc with nrefs := 1 })).length := by
    rw [List.length_set]; exact hlt
  have hd2 := rpmtsScoreDeref_set_same _ p none hlt2
  rw [h1]
  simp only
  rw [h2]
  refine ⟨by trivial, hd1, ?_, by trivial, hd2, ?_⟩
  · intro N
    simp only [rpmtsScoreGetEntry, hd1, h]
  · intro N
    simp only [rpmtsScoreGetEntry, hd2]

theorem rpmtsScoreInit_deref {V : Type} (store : rpmtsScoreStore) (runningTS rollbackTS : rpmts_s V) :
    rpmtsScoreDeref (rpmtsScoreInit store runningTS rollbackTS).2.1 (some store.length)
      = some { entries := ((runningTS.order.filterMap (rpmtsTe runningTS)).foldl
                            scoreAddElement []).length,
               scores := (runningTS.order.filterMap (rpmtsTe runningTS)).foldl
                            scoreAddElement [],
               nrefs := 2 } := by
  simp [rpmtsScoreInit, rpmtsScoreDeref]

/-! ## C9: the shared tracker survives the first `rpmtsScoreFree` -/

/-- C9: after `rpmtsScoreInit` both transactions point to one tracker with
`nrefs = 2`; the first `rpmtsScoreFree` leaves the tracker in place with
`nrefs = 1` and the same entries, so `rpmtsScoreGetEntry` through the other
transaction answers as before; the second `rpmtsScoreFree` destroys it. -/
theorem rpmtsScore_shared_until_second_free {V : Type} (store : rpmtsScoreStore)
    (runningTS rollbackTS : rpmts_s V) :
    let r := rpmtsScoreInit store runningTS rollbackTS
    let score1 := rpmtsGetScore r.2.2.1
    let score2 := rpmtsGetScore r.2.2.2
    let free1 := rpmtsScoreFree r.2.1 score1
    let free2 := rpmtsScoreFree free1.1 score2
    r.1 = rpmRC.RPMRC_OK ∧ score1 = score2 ∧ score1 ≠ none ∧
    (∃ sc : rpmtsScore_s,
      rpmtsScoreDeref r.2.1 score1 = some sc ∧ sc.nrefs = 2 ∧
      rpmtsScoreDeref free1.1 score2 = some { sc with nrefs := 1 }) ∧
    free1.2 = none ∧
    (∀ N : String, rpmtsScoreGetEntry free1.1 score2 N = rpmtsScoreGetEntry r.2.1 score2 N) ∧
    free2.2 = none ∧
    rpmtsScoreDeref free2.1 score2 = none ∧
    (∀ N : String, rpmtsScoreGetEntry free2.1 score2 N = none) := by
  intro r score1 score2 free1 free2
  have h0 := rpmtsScoreInit_deref store runningTS rollbackTS
  have h := rpmtsScoreFree_twice _ _ _ h0 rfl
  have hs1 : score1 = some store.length := rfl
  have hs2 : score2 = some store.length := rfl
  refine ⟨rfl, rfl, by simp [hs1], ⟨_, h0, rfl, h.2.1⟩, h.1, h.2.2.1, h.2.2.2.1,
    h.2.2.2.2.1, h.2.2.2.2.2⟩

/-! ## Helper lemmas: score entries after `rpmtsScoreInit` -/

theorem scoreAddElement_mem_name {V : Type} (scores : List rpmtsScoreEntry_s) (e : rpmte_s V) :
    ∃ se ∈ scoreAddElement scores e, se.N = e.N := by
  unfold scoreAddElement
  split
  · rename_i h
    rw [List.any_eq_true] at h
    obtain ⟨se, hse, hn⟩ := h
    have hn' : se.N = e.N := by simpa using hn
    by_cases hc : se.N = e.N ∧ e.type ∉ se.te_types
    · refine ⟨{ se with te_types := se.te_types ++ [e.type] }, ?_, hn'⟩
      rw [List.mem_map]
      exact ⟨se, hse, by simp [hc]⟩
    · refine ⟨se, ?_, hn'⟩
      rw [List.mem_map]
      exact ⟨se, hse, by simp [hc]⟩
  · exact ⟨{ N := e.N, te_types := [e.type], installed := 0, erased := 0 }, by simp, rfl⟩

theorem scoreAddElement_keeps_name {V : Type} (scores : List rpmtsScoreEntry_s) (e : rpmte_s V)
    (n : String) (h : ∃ se ∈ scores, se.N = n) :
    ∃ se ∈ scoreAddElement scores e, se.N = n := by
  obtain ⟨se, hse, hn⟩ := h
  unfold scoreAddElement
  split
  · by_cases hc : se.N = e.N ∧ e.type ∉ se.te_types
    · refine ⟨{ se with te_types := se.te_types ++ [e.type] }, ?_, hn⟩
      rw [List.mem_map]
      exact ⟨se, hse, by simp [hc]⟩
    · refine ⟨se, ?_, hn⟩
      rw [List.mem_map]
      exact ⟨se, hse, by simp [hc]⟩
  · exact ⟨se, by simp [hse], hn⟩

theorem scoreAddElement_foldl_names {V : Type} (l : List (rpmte_s V)) :
    ∀ acc : List rpmtsScoreEntry_s,
      (∀ n : String, (∃ se ∈ acc, se.N = n) → ∃ se ∈ l.foldl scoreAddElement acc, se.N = n) ∧
      (∀ e ∈ l, ∃ se ∈ l.foldl scoreAddElement acc, se.N = e.N) := by
  induction l with
  | nil => intro acc; exact ⟨fun n h => h, fun e he => by cases he⟩
  | cons a t ih =>
    intro acc
    have iht := ih (scoreAddElement acc a)
    constructor
    · intro n h
      exact iht.1 n (scoreAddElement_keeps_name acc a n h)
    · intro e he
      rcases List.mem_cons.mp he with rfl | he
      · exact iht.1 _ (scoreAddElement_mem_name acc e)
      · exact iht.2 e he

/-- After `rpmtsScoreInit` every element of the running transaction has an
entry under its name. -/
theorem rpmtsScoreInit_has_entry {V : Type} (store : rpmtsScoreStore)
    (runningTS rollbackTS : rpmts_s V) (p : Nat) (e : rpmte_s V)
    (hp : p ∈ runningTS.order) (he : rpmtsTe runningTS p = some e) :
    ∃ se, rpmtsScoreGetEntry (rpmtsScoreInit store runningTS rollbackTS).2.1
        (rpmtsGetScore (rpmtsScoreInit store runningTS rollbackTS).2.2.2) e.N = some se ∧
      se.N = e.N := by
  have hmem : e ∈ runningTS.order.filterMap (rpmtsTe runningTS) := by
    rw [List.mem_filterMap]
    exact ⟨p, hp, he⟩
  obtain ⟨se, hse, hn⟩ := (scoreAddElement_foldl_names _ []).2 e hmem
  have hd := rpmtsScoreInit_deref store runningTS rollbackTS
  have hs : rpmtsGetScore (rpmtsScoreInit store runningTS rollbackTS).2.2.2
      = some store.length := rfl
  rw [hs]
  unfold rpmtsScoreGetEntry
  rw [hd]
  simp only
  cases hf : List.find? (fun se => decide (se.N = e.N))
      ((runningTS.order.filterMap (rpmtsTe runningTS)).foldl scoreAddElement []) with
  | none =>
    rw [List.find?_eq_none] at hf
    exact absurd (by simpa using hn) (hf se hse)
  | some se' =>
    refine ⟨se', rfl, ?_⟩
    have := List.find?_some hf
    simpa using this

/-! ## C10: `rpmtsUnlink` -/

/-- C10: for a reference count of at least 1, `rpmtsUnlink` decrements the
count; when the resulting count is above 0 the object stays alive, with the
decremented count and otherwise unchanged, and is the handle returned; when
the resulting count is 0 the object is destroyed and the returned handle is
null. -/
theorem rpmtsUnlink_returns_object_or_destroys {V : Type} (ts : rpmts_s V) (msg : String)
    (hn : 1 ≤ ts.nrefs) :
    (0 < ts.nrefs - 1 ∨ ts.nrefs - 1 = 0) ∧
    (0 < ts.nrefs - 1 →
      (rpmtsUnlink ts msg).1 = some { ts with nrefs := ts.nrefs - 1 } ∧
      (rpmtsUnlink ts msg).2 = some { ts with nrefs := ts.nrefs - 1 }) ∧
    (ts.nrefs - 1 = 0 →
      (rpmtsUnlink ts msg).1 = none ∧ (rpmtsUnlink ts msg).2 = none) := by
  unfold rpmtsUnlink
  refine ⟨by omega, ?_, ?_⟩
  · intro h
    simp [h]
  · intro h
    simp [h]

/-- C10 at concrete inputs: with two references the object is returned with
one reference left; with one reference it is destroyed and the handle is
null. -/
theorem rpmtsUnlink_returns_object_or_destroys_witness :
    (rpmtsLink exampleTs "").nrefs = 2 ∧
    (rpmtsUnlink (rpmtsLink exampleTs "") "").1 = some exampleTs ∧
    (rpmtsUnlink (rpmtsLink exampleTs "") "").2 = some exampleTs ∧
    (rpmtsUnlink exampleTs "").1 = none ∧
    (rpmtsUnlink exampleTs "").2 = none :=
  ⟨by decide,
   ((rpmtsUnlink_returns_object_or_destroys (rpmtsLink exampleTs "") "" (by decide)).2.1
     (by decide)).1,
   ((rpmtsUnlink_returns_object_or_destroys (rpmtsLink exampleTs "") "" (by decide)).2.1
     (by decide)).2,
   ((rpmtsUnlink_returns_object_or_destroys exampleTs "" (by decide)).2.2 (by decide)).1,
   ((rpmtsUnlink_returns_object_or_destroys exampleTs "" (by decide)).2.2 (by decide)).2⟩

/-! ## Helper lemmas: the typed `BLOCK_ROUND` -/

theorem toUint32_of_range (x : Int) (h0 : 0 ≤ x) (h1 : x < 2 ^ 32) :
    (toUint32 x : Int) = x := by
  unfold toUint32
  rw [Int.emod_eq_of_lt h0 h1]
  exact Int.toNat_of_nonneg h0

theorem ceil_rat_div (a b : Int) (hb : 0 < b) :
    ⌈(a : ℚ) / (b : ℚ)⌉ = (a + b - 1) / b := by
  have h1 := Int.emod_add_ediv (a + b - 1) b
  have h2 := Int.emod_nonneg (a + b - 1) (ne_of_gt hb)
  have h3 := Int.emod_lt_of_pos (a + b - 1) hb
  have hbq : (0 : ℚ) < (b : ℚ) := by exact_mod_cast hb
  rw [Int.ceil_eq_iff]
  constructor
  · rw [lt_div_iff₀ hbq]
    have : ((a + b - 1) / b - 1) * b < a := by
      have : ((a + b - 1) / b - 1) * b = b * ((a + b - 1) / b) - b := by ring
      omega
    exact_mod_cast this
  · rw [div_le_iff₀ hbq]
    have : a ≤ (a + b - 1) / b * b := by
      rw [mul_comm]; omega
    exact_mod_cast this

/-- While the sum `size + block - 1` stays below `2 ^ 32` the typed macro
agrees with the macro over the integers. -/
theorem BLOCK_ROUND_u32_of_no_wrap (size : Nat) (block : Int) (hb : 0 < block)
    (hb31 : block < 2 ^ 31) (hsum : (size : Int) + block - 1 < 2 ^ 32) :
    (BLOCK_ROUND_u32 size block : Int) = BLOCK_ROUND (size : Int) block := by
  have hb32 : block < 2 ^ 32 := by omega
  have hconv := toUint32_of_range block (le_of_lt hb) hb32
  rw [BLOCK_ROUND_eq_ediv (size : Int) block (by omega) hb]
  unfold BLOCK_ROUND_u32
  obtain ⟨b, rfl⟩ := Int.eq_ofNat_of_zero_le (le_of_lt hb)
  have hb' : toUint32 (b : Int) = b := by exact_mod_cast hconv
  rw [hb']
  have hs : size % 2 ^ 32 = size := Nat.mod_eq_of_lt (by omega)
  rw [hs]
  have hb0 : 0 < b := by exact_mod_cast hb
  have hsum' : size + b - 1 < 2 ^ 32 := by omega
  have e : (size + b + (2 ^ 32 - 1)) % 2 ^ 32 = size + b - 1 := by
    have : size + b + (2 ^ 32 - 1) = (size + b - 1) + 2 ^ 32 := by omega
    rw [this, Nat.add_mod_right, Nat.mod_eq_of_lt hsum']
  rw [e]
  have : ((size : Int) + (b : Int) - 1) = ((size + b - 1 : Nat) : Int) := by omega
  rw [this]
  exact Int.ofNat_ediv _ _

/-- When the sum `size + block - 1` reaches `2 ^ 32` the typed macro yields
the quotient of the wrapped sum. -/
theorem BLOCK_ROUND_u32_of_wrap (size b : Nat) (hs : size < 2 ^ 32) (hb0 : 0 < b)
    (hb : b < 2 ^ 31) (hsum : 2 ^ 32 ≤ size + b - 1) :
    BLOCK_ROUND_u32 size (b : Int) = (size + b - 1 - 2 ^ 32) / b := by
  have hconv := toUint32_of_range (b : Int) (by omega) (by omega)
  have hb' : toUint32 (b : Int) = b := by exact_mod_cast hconv
  unfold BLOCK_ROUND_u32
  rw [hb', Nat.mod_eq_of_lt hs]
  have e : (size + b + (2 ^ 32 - 1)) % 2 ^ 32 = size + b - 1 - 2 ^ 32 := by
    have h1 : size + b + (2 ^ 32 - 1) = (size + b - 1 - 2 ^ 32) + 2 ^ 32 + 2 ^ 32 := by omega
    rw [h1, Nat.add_mod_right, Nat.add_mod_right, Nat.mod_eq_of_lt (by omega)]
  rw [e]

/-! ## C11: removing a file in `rpmtsUpdateDSI` -/

theorem rpmtsUpdateDSI_at_entry (pre post : List diskspaceInfo_s) (d : diskspaceInfo_s)
    (fileSize prevSize fixupSize : Nat) (action : rpmFileAction)
    (hpre : ∀ x ∈ pre, x.dev ≠ d.dev) :
    rpmtsUpdateDSI (pre ++ d :: post) d.dev fileSize prevSize fixupSize action
      = pre ++ dsiUpdateEntry d fileSize prevSize fixupSize action :: post := by
  induction pre with
  | nil => simp [rpmtsUpdateDSI]
  | cons x t ih =>
    have hx : x.dev ≠ d.dev := hpre x (List.mem_cons_self x t)
    have ht : ∀ y ∈ t, y.dev ≠ d.dev := fun y hy => hpre y (List.mem_cons_of_mem x hy)
    simp [rpmtsUpdateDSI, hx, ih ht]

/-- C11, refuted as stated: on the device with 4096-byte blocks a remove with
`fileSize = 4096` and `fixupSize = 4096` lowers `bneeded` from 10 to 8, by two
blocks, while `BLOCK_ROUND(4096, 4096)` is one block. -/
theorem rpmtsUpdateDSI_remove_with_fixup :
    (rpmtsUpdateDSI exampleDsi 2049 4096 0 4096 rpmFileAction.remove).map
        (fun d => (d.dev, d.bneeded)) = [(2049, 8), (2050, 7)] ∧
    BLOCK_ROUND 4096 4096 = 1 ∧
    ¬ (∃ d ∈ rpmtsUpdateDSI exampleDsi 2049 4096 0 4096 rpmFileAction.remove,
        d.dev = 2049 ∧ d.bneeded = 10 - BLOCK_ROUND 4096 4096) := by
  decide

/-- C11, amended: for the first entry of device `dev`, with block size
`0 < bsize < 2 ^ 31`, and a file size `F` whose sum `F + bsize - 1` stays below
`2 ^ 32`, `rpmtsUpdateDSI` with a remove action and `fixupSize = 0` lowers that
entry's `bneeded` by exactly `BLOCK_ROUND(F, bsize)`, the ceiling of
`F / bsize`, lowers its `ineeded` by one and leaves every other entry as it
was. -/
theorem rpmtsUpdateDSI_remove (pre post : List diskspaceInfo_s) (d : diskspaceInfo_s)
    (F prevSize : Nat) (hpre : ∀ x ∈ pre, x.dev ≠ d.dev)
    (hb : 0 < d.bsize) (hb31 : d.bsize < 2 ^ 31) (hF : (F : Int) + d.bsize - 1 < 2 ^ 32) :
    rpmtsUpdateDSI (pre ++ d :: post) d.dev F prevSize 0 rpmFileAction.remove
      = pre ++ { d with ineeded := d.ineeded - 1,
                        bneeded := d.bneeded - BLOCK_ROUND (F : Int) d.bsize } :: post ∧
    BLOCK_ROUND (F : Int) d.bsize = ⌈(F : ℚ) / (d.bsize : ℚ)⌉ := by
  constructor
  · rw [rpmtsUpdateDSI_at_entry pre post d F prevSize 0 rpmFileAction.remove hpre]
    simp only [dsiUpdateEntry, ne_eq, not_true_eq_false, if_false]
    rw [BLOCK_ROUND_u32_of_no_wrap F d.bsize hb hb31 hF]
  · rw [BLOCK_ROUND_eq_ediv (F : Int) d.bsize (by omega) hb,
      ← ceil_rat_div (F : Int) d.bsize hb, Int.cast_natCast]

/-- C11 amended, at a concrete input: removing a file of 4097 bytes on the
device with 4096-byte blocks lowers `bneeded` from 10 to 8 and leaves the entry
of the other device unchanged. -/
theorem rpmtsUpdateDSI_remove_witness :
    rpmtsUpdateDSI exampleDsi 2049 4097 0 0 rpmFileAction.remove
      = [{ dev := 2049, bneeded := 10 - BLOCK_ROUND 4097 4096, ineeded := 5 - 1,
           bsize := 4096, bavail := 100, iavail := 100 },
         { dev := 2050, bneeded := 7, ineeded := 3, bsize := 1024, bavail := 50,
           iavail := 50 }] ∧
    BLOCK_ROUND 4097 4096 = 2 :=
  ⟨(rpmtsUpdateDSI_remove []
      [{ dev := 2050, bneeded := 7, ineeded := 3, bsize := 1024, bavail := 50, iavail := 50 }]
      { dev := 2049, bneeded := 10, ineeded := 5, bsize := 4096, bavail := 100, iavail := 100 }
      4097 0 (by decide) (by decide) (by decide) (by decide)).1,
   by decide⟩

/-! ## C12: the masks split the eight skip bits in two ways -/

/-- C12: the digest and signature masks are disjoint, the header and payload
masks are disjoint, both pairs have the same union, which is the eight skip
bits 8..11 and 16..19, and neither `RPMVSF_NOHDRCHK` nor `RPMVSF_NEEDPAYLOAD`
shares a bit with any of the four masks. -/
theorem convenience_masks_split_eight_bits :
    _RPMVSF_NODIGESTS &&& _RPMVSF_NOSIGNATURES = 0 ∧
    _RPMVSF_NOHEADER &&& _RPMVSF_NOPAYLOAD = 0 ∧
    _RPMVSF_NODIGESTS ||| _RPMVSF_NOSIGNATURES = _RPMVSF_NOHEADER ||| _RPMVSF_NOPAYLOAD ∧
    _RPMVSF_NODIGESTS ||| _RPMVSF_NOSIGNATURES
      = RPMVSF_NOSHA1HEADER + RPMVSF_NOMD5HEADER + RPMVSF_NODSAHEADER + RPMVSF_NORSAHEADER
        + RPMVSF_NOSHA1 + RPMVSF_NOMD5 + RPMVSF_NODSA + RPMVSF_NORSA ∧
    (∀ i, (_RPMVSF_NODIGESTS ||| _RPMVSF_NOSIGNATURES).testBit i = true ↔
      (8 ≤ i ∧ i ≤ 11) ∨ (16 ≤ i ∧ i ≤ 19)) ∧
    (∀ m ∈ rpmVSFlags_masks,
      m &&& RPMVSF_NOHDRCHK = 0 ∧ m &&& RPMVSF_NEEDPAYLOAD = 0 ∧
      vsflagsHas m RPMVSF_NOHDRCHK = false ∧ vsflagsHas m RPMVSF_NEEDPAYLOAD = false) ∧
    (∀ v : Nat,
      (vsflagsHas v _RPMVSF_NODIGESTS = true ∧ vsflagsHas v _RPMVSF_NOSIGNATURES = true) ↔
      (vsflagsHas v _RPMVSF_NOHEADER = true ∧ vsflagsHas v _RPMVSF_NOPAYLOAD = true)) := by
  have hunion : _RPMVSF_NODIGESTS ||| _RPMVSF_NOSIGNATURES
      = _RPMVSF_NOHEADER ||| _RPMVSF_NOPAYLOAD := by decide
  refine ⟨by decide, by decide, hunion, by decide, ?_, by decide, ?_⟩
  · intro i
    by_cases hi : i < 20
    · interval_cases i <;> decide
    · rw [testBit_of_lt_two_pow_20 _ i (by decide) (by omega)]
      constructor
      · intro h; cases h
      · intro h; exfalso; omega
  · intro v
    rw [← vsflagsHas_or_iff, ← vsflagsHas_or_iff, hunion]

/-! ## C13: `adj_fs_blocks(n) = n + n / 20` -/

/-- C13: `adj_fs_blocks(n)` is `n + n / 20` under C division; it is odd,
`adj_fs_blocks(-n) = -adj_fs_blocks(n)`, at least `n` for `n ≥ 0`, and for
negative `n` it is the ceiling of `n * 21 / 20`, which lies one above the
floor whenever 20 does not divide `n`; `adj_fs_blocks(-1) = -1`. -/
theorem adj_fs_blocks_eq_add_div (n : Int) :
    adj_fs_blocks n = n + Int.tdiv n 20 ∧
    adj_fs_blocks (-n) = - adj_fs_blocks n ∧
    (0 ≤ n → n ≤ adj_fs_blocks n) ∧
    (n < 0 → adj_fs_blocks n = ⌈((n * 21 : Int) : ℚ) / 20⌉) ∧
    (n < 0 → ¬ (20 : Int) ∣ n → adj_fs_blocks n = ⌊((n * 21 : Int) : ℚ) / 20⌋ + 1) ∧
    adj_fs_blocks (-1) = -1 := by
  have hneg : ∀ a : Int, Int.tdiv (-a) 20 = - Int.tdiv a 20 := fun a => Int.neg_tdiv a 20
  have hpos : ∀ a : Int, 0 ≤ a → Int.tdiv a 20 = a / 20 :=
    fun a ha => Int.tdiv_eq_ediv ha (by decide)
  have hform : ∀ a : Int, Int.tdiv (a * 21) 20 = a + Int.tdiv a 20 := by
    intro a
    rcases le_or_lt 0 a with ha | ha
    · rw [hpos a ha, hpos (a * 21) (by omega)]
      omega
    · have e1 : a * 21 = - ((-a) * 21) := by ring
      have e2 : a = - (-a) := by ring
      rw [e1, hneg, hpos ((-a) * 21) (by omega)]
      nth_rewrite 3 [e2]
      rw [hneg, hpos (-a) (by omega)]
      omega
  have hfloor : ⌊((n * 21 : Int) : ℚ) / 20⌋ = (n * 21) / 20 := by
    rw [Int.floor_eq_iff]
    constructor
    · rw [le_div_iff₀ (by norm_num)]
      have : (n * 21) / 20 * 20 ≤ n * 21 := by omega
      exact_mod_cast this
    · rw [div_lt_iff₀ (by norm_num)]
      have : n * 21 < ((n * 21) / 20 + 1) * 20 := by omega
      exact_mod_cast this
  have hceil : ⌈((n * 21 : Int) : ℚ) / 20⌉ = - ((- (n * 21)) / 20) := by
    rw [Int.ceil_eq_iff]
    constructor
    · rw [lt_div_iff₀ (by norm_num)]
      have : (- ((- (n * 21)) / 20) - 1) * 20 < n * 21 := by omega
      exact_mod_cast this
    · rw [div_le_iff₀ (by norm_num)]
      have : n * 21 ≤ (- ((- (n * 21)) / 20)) * 20 := by omega
      exact_mod_cast this
  have hval : n < 0 → adj_fs_blocks n = - ((- (n * 21)) / 20) := by
    intro h
    unfold adj_fs_blocks
    have e1 : n * 21 = - (- (n * 21)) := by ring
    rw [e1, hneg, hpos (- (n * 21)) (by omega)]
    simp
  refine ⟨hform n, ?_, ?_, ?_, ?_, by decide⟩
  · unfold adj_fs_blocks
    rw [hform, hform, hneg]
    ring
  · intro h
    unfold adj_fs_blocks
    rw [hform, hpos n h]
    omega
  · intro h
    rw [hceil]; exact hval h
  · intro h hdiv
    rw [hfloor, hval h]
    have : ¬ (20 : Int) ∣ n * 21 := by
      intro hd
      apply hdiv
      omega
    omega

/-! ## C14: `BLOCK_ROUND` at the declared operand types -/

/-- C14: with a `uint_32` size and a positive `int` block size, whenever
`size + block - 1` reaches `2 ^ 32` the macro yields strictly less than the
ceiling of `size / block`; such operands exist: `size = 2 ^ 32 - 1` and
`block = 4096` yield 0 blocks where `2 ^ 20` are needed. -/
theorem BLOCK_ROUND_u32_undercounts :
    (∃ (size : Nat) (block : Int), size < 2 ^ 32 ∧ 0 < block ∧ block < 2 ^ 31 ∧
      (BLOCK_ROUND_u32 size block : Int) < ⌈(size : ℚ) / (block : ℚ)⌉) ∧
    (∀ (size : Nat) (block : Int), size < 2 ^ 32 → 0 < block → block < 2 ^ 31 →
      2 ^ 32 ≤ (size : Int) + block - 1 →
      (BLOCK_ROUND_u32 size block : Int) < ⌈(size : ℚ) / (block : ℚ)⌉) ∧
    BLOCK_ROUND_u32 (2 ^ 32 - 1) 4096 = 0 ∧
    ⌈((2 ^ 32 - 1 : Nat) : ℚ) / ((4096 : Int) : ℚ)⌉ = 2 ^ 20 := by
  have hall : ∀ (size : Nat) (block : Int), size < 2 ^ 32 → 0 < block → block < 2 ^ 31 →
      2 ^ 32 ≤ (size : Int) + block - 1 →
      (BLOCK_ROUND_u32 size block : Int) < ⌈(size : ℚ) / (block : ℚ)⌉ := by
    intro size block hs hb hb31 hsum
    obtain ⟨b, rfl⟩ := Int.eq_ofNat_of_zero_le (le_of_lt hb)
    have hb0 : 0 < b := by exact_mod_cast hb
    have hb31' : b < 2 ^ 31 := by exact_mod_cast hb31
    have hsum' : 2 ^ 32 ≤ size + b - 1 := by omega
    rw [BLOCK_ROUND_u32_of_wrap size b hs hb0 hb31' hsum']
    have hc := ceil_rat_div (size : Int) (b : Int) hb
    have hcast : ((size : Int) : ℚ) = (size : ℚ) := Int.cast_natCast size
    rw [hcast] at hc
    rw [hc]
    have e : ((size : Int) + (b : Int) - 1) = ((size + b - 1 : Nat) : Int) := by omega
    rw [e, ← Int.ofNat_ediv]
    have hq := Nat.div_mul_le_self (size + b - 1 - 2 ^ 32) b
    have hlt : (size + b - 1 - 2 ^ 32) / b + 1 ≤ (size + b - 1) / b := by
      rw [Nat.le_div_iff_mul_le hb0, Nat.add_mul]
      omega
    exact_mod_cast hlt
  have hex : ⌈((2 ^ 32 - 1 : Nat) : ℚ) / ((4096 : Int) : ℚ)⌉ = 2 ^ 20 := by
    rw [Int.ceil_eq_iff]
    norm_num
  refine ⟨⟨2 ^ 32 - 1, 4096, by decide, by decide, by decide, ?_⟩, hall, by decide, hex⟩
  exact hall (2 ^ 32 - 1) 4096 (by decide) (by decide) (by decide) (by decide)

/-- C14 at the concrete input of the claim: for `size = 2 ^ 32 - 1` and
`block = 4096` the sum wraps and the macro's 0 blocks lie below the ceiling. -/
theorem BLOCK_ROUND_u32_undercounts_witness :
    BLOCK_ROUND_u32 (2 ^ 32 - 1) 4096 = 0 ∧
    (BLOCK_ROUND_u32 (2 ^ 32 - 1) 4096 : Int)
      < ⌈((2 ^ 32 - 1 : Nat) : ℚ) / ((4096 : Int) : ℚ)⌉ :=
  ⟨BLOCK_ROUND_u32_undercounts.2.2.1,
   BLOCK_ROUND_u32_undercounts.2.1 (2 ^ 32 - 1) 4096 (by decide) (by decide) (by decide)
     (by decide)⟩

/-! ## C15: the operation-timer indices -/

/-- C15: the enumerators of `rpmtsOpX` other than `RPMTS_OP_MAX` have distinct
values that are exactly the integers 0..16, and `RPMTS_OP_MAX` is 17, their
count; so in an array of `RPMTS_OP_MAX` entries every such index is in bounds
and two different operations have different slots. -/
theorem rpmtsOpX_indices_cover_ops :
    (∀ opx : rpmtsOpX, opx ≠ rpmtsOpX.RPMTS_OP_MAX → opx.val ≤ 16) ∧
    (∀ a b : rpmtsOpX, a ≠ b → a.val ≠ b.val) ∧
    (∀ i : Nat, i ≤ 16 → ∃ opx : rpmtsOpX, opx ≠ rpmtsOpX.RPMTS_OP_MAX ∧ opx.val = i) ∧
    rpmtsOpX.RPMTS_OP_MAX.val = 17 ∧
    (∀ opx : rpmtsOpX, opx ∈ rpmtsOpX_indices ↔ opx ≠ rpmtsOpX.RPMTS_OP_MAX) ∧
    rpmtsOpX_indices.Nodup ∧
    rpmtsOpX_indices.length = rpmtsOpX.RPMTS_OP_MAX.val ∧
    (∀ (α : Type) (ops : List α), ops.length = rpmtsOpX.RPMTS_OP_MAX.val →
      ∀ opx : rpmtsOpX, opx ≠ rpmtsOpX.RPMTS_OP_MAX →
        opx.val < ops.length ∧ ∃ x, ops[opx.val]? = some x) := by
  have hle : ∀ opx : rpmtsOpX, opx ≠ rpmtsOpX.RPMTS_OP_MAX → opx.val ≤ 16 := by
    intro opx h
    cases opx <;> first | decide | exact absurd rfl h
  refine ⟨hle, ?_, ?_, rfl, ?_, by decide, rfl, ?_⟩
  · intro a b h
    cases a <;> cases b <;> first | decide | exact absurd rfl h
  · intro i hi
    interval_cases i
    · exact ⟨rpmtsOpX.RPMTS_OP_TOTAL, by decide, rfl⟩
    · exact ⟨rpmtsOpX.RPMTS_OP_CHECK, by decide, rfl⟩
    · exact ⟨rpmtsOpX.RPMTS_OP_ORDER, by decide, rfl⟩
    · exact ⟨rpmtsOpX.RPMTS_OP_FINGERPRINT, by decide, rfl⟩
    · exact ⟨rpmtsOpX.RPMTS_OP_REPACKAGE, by decide, rfl⟩
    · exact ⟨rpmtsOpX.RPMTS_OP_INSTALL, by decide, rfl⟩
    · exact ⟨rpmtsOpX.RPMTS_OP_ERASE, by decide, rfl⟩
    · exact ⟨rpmtsOpX.RPMTS_OP_SCRIPTLETS, by decide, rfl⟩
    · exact ⟨rpmtsOpX.RPMTS_OP_COMPRESS, by decide, rfl⟩
    · exact ⟨rpmtsOpX.RPMTS_OP_UNCOMPRESS, by decide, rfl⟩
    · exact ⟨rpmtsOpX.RPMTS_OP_DIGEST, by decide, rfl⟩
    · exact ⟨rpmtsOpX.RPMTS_OP_SIGNATURE, by decide, rfl⟩
    · exact ⟨rpmtsOpX.RPMTS_OP_DBADD, by decide, rfl⟩
    · exact ⟨rpmtsOpX.RPMTS_OP_DBREMOVE, by decide, rfl⟩
    · exact ⟨rpmtsOpX.RPMTS_OP_DBGET, by decide, rfl⟩
    · exact ⟨rpmtsOpX.RPMTS_OP_DBPUT, by decide, rfl⟩
    · exact ⟨rpmtsOpX.RPMTS_OP_DBDEL, by decide, rfl⟩
  · intro opx
    cases opx <;> decide
  · intro α ops hlen opx h
    have h1 := hle opx h
    have h2 : opx.val < ops.length := by
      rw [hlen]
      have : rpmtsOpX.RPMTS_OP_MAX.val = 17 := rfl
      omega
    exact ⟨h2, ops[opx.val], List.getElem?_eq_getElem h2⟩

/-- C15 at a concrete input: in an array of 17 accumulators the slot of
`RPMTS_OP_DBDEL` is the last one, index 16, and differs from the slot of
`RPMTS_OP_TOTAL`. -/
theorem rpmtsOpX_indices_cover_ops_witness :
    rpmtsOpX.RPMTS_OP_DBDEL.val < (List.range 17).length ∧
    (∃ x, (List.range 17)[rpmtsOpX.RPMTS_OP_DBDEL.val]? = some x) ∧
    rpmtsOpX.RPMTS_OP_DBDEL.val ≠ rpmtsOpX.RPMTS_OP_TOTAL.val :=
  ⟨(rpmtsOpX_indices_cover_ops.2.2.2.2.2.2.2 Nat (List.range 17) (by decide)
      rpmtsOpX.RPMTS_OP_DBDEL (by decide)).1,
   (rpmtsOpX_indices_cover_ops.2.2.2.2.2.2.2 Nat (List.range 17) (by decide)
      rpmtsOpX.RPMTS_OP_DBDEL (by decide)).2,
   rpmtsOpX_indices_cover_ops.2.1 _ _ (by decide)⟩

end Rpmts
